import Mathlib

/-!
Verification of the Todo.txt Obsidian plugin core (parser, recurrence
calculator, filter/sort engine, task mutation operations) against its
natural-language specification.

The JavaScript/TypeScript sources are shallowly embedded:
* strings are `String`/`List Char`; JS `\s` is modelled as the ASCII
  whitespace set {space, tab, LF, CR} (JS additionally treats some
  Unicode spaces as `\s`; none occur in the properties checked here);
* JS `Date` objects (always constructed at UTC midnight from ISO dates,
  and only mutated by day-granularity setters) are modelled as an `Int`
  count of days since 1970-01-01, with the proleptic-Gregorian civil
  conversions; the ambient timezone is modelled as UTC;
* JS code that throws or fails to terminate (e.g. `toISOString` on an
  Invalid Date, or a `while` loop whose guard compares against `NaN`)
  is modelled by `Option`, with `none` for the failing executions;
* `localeCompare` and JS string `<=` are modelled as code-unit
  lexicographic comparison.
-/

namespace TodoTxt

/-! ### Character classes (JS regexes `\s`, `\d`, `\w`, `[A-Z]`, `.`) -/

/-- JS `\s` whitespace class, restricted to the ASCII members. -/
def chIsWs (c : Char) : Bool :=
  c.toNat = 32 || c.toNat = 9 || c.toNat = 10 || c.toNat = 13

/-- JS `\d` digit class. -/
def chIsDigit (c : Char) : Bool :=
  48 ≤ c.toNat && c.toNat ≤ 57

/-- JS `\w` word-character class `[A-Za-z0-9_]`. -/
def chIsWord (c : Char) : Bool :=
  (48 ≤ c.toNat && c.toNat ≤ 57) || (65 ≤ c.toNat && c.toNat ≤ 90) ||
    (97 ≤ c.toNat && c.toNat ≤ 122) || c.toNat = 95

/-- JS `[A-Z]` class. -/
def chIsUpper (c : Char) : Bool :=
  65 ≤ c.toNat && c.toNat ≤ 90

/-- Characters NOT matched by the JS `.` regex atom (line terminators). -/
def chIsNl (c : Char) : Bool :=
  c.toNat = 10 || c.toNat = 13 || c.toNat = 8232 || c.toNat = 8233

/-! ### Generic list-of-characters utilities -/

/-- Does `s` start with the literal pattern `pat`? -/
def startsWithL : List Char → List Char → Bool
  | [], _ => true
  | _ :: _, [] => false
  | p :: ps, c :: cs => p = c && startsWithL ps cs

/-- JS `String.prototype.includes` on character lists. -/
def containsL (s pat : List Char) : Bool :=
  match s with
  | [] => startsWithL pat []
  | _ :: cs => startsWithL pat s || containsL cs pat

/-- JS `String.prototype.trim` (ASCII whitespace model). -/
def trimL (s : List Char) : List Char :=
  ((s.dropWhile chIsWs).reverse.dropWhile chIsWs).reverse

/-- Splitting on runs of whitespace (the non-degenerate core of JS
`split(/\s+/)`): returns the maximal whitespace-free nonempty chunks. -/
def splitWsAux : List Char → List Char → List (List Char)
  | [], acc => if acc = [] then [] else [acc.reverse]
  | c :: cs, acc =>
    if chIsWs c then
      if acc = [] then splitWsAux cs [] else acc.reverse :: splitWsAux cs []
    else splitWsAux cs (c :: acc)

/-- JS `s.split(/\s+/)` for a trimmed string `s` (every call site in the
source trims first): on the empty string JS yields `[""]`. -/
def jsSplitWs (s : List Char) : List (List Char) :=
  if s = [] then [[]] else splitWsAux s []

/-- Join chunks with single spaces (JS `Array.prototype.join(" ")`). -/
def joinSp : List (List Char) → List Char
  | [] => []
  | t :: ts =>
    match ts with
    | [] => t
    | _ :: _ => t ++ ' ' :: joinSp ts

/-- Lexicographic three-way comparison by code unit, as an integer sign
(model of `localeCompare` and of JS string relational operators). -/
def clCmp : List Char → List Char → Int
  | [], [] => 0
  | [], _ :: _ => -1
  | _ :: _, [] => 1
  | a :: as, b :: bs =>
    if a.toNat < b.toNat then -1
    else if b.toNat < a.toNat then 1
    else clCmp as bs

/-- String three-way comparison. -/
def jsStrCmp (a b : String) : Int := clCmp a.data b.data

/-- JS string `a <= b`. -/
def jsStrLe (a b : String) : Bool := jsStrCmp a b ≤ 0

/-- JS string `a < b`. -/
def jsStrLt (a b : String) : Bool := jsStrCmp a b < 0

/-- JS `parseInt(s, 10)`: skip leading whitespace, optional sign, then a
nonempty run of leading digits; `none` models `NaN`. -/
def jsParseIntDigits (s : List Char) : Option Int :=
  let ds := s.takeWhile chIsDigit
  if ds = [] then none
  else some (Int.ofNat (ds.foldl (fun n c => n * 10 + (c.toNat - 48)) 0))

/-- JS `parseInt` including sign handling. -/
def jsParseInt (s : List Char) : Option Int :=
  match s.dropWhile chIsWs with
  | '-' :: rest => (jsParseIntDigits rest).map (fun n => -n)
  | '+' :: rest => jsParseIntDigits rest
  | rest => jsParseIntDigits rest

/-- Splitter used by `jsSplitCh` (JS `split(sep)` for one-char `sep`). -/
def splitChAux (sep : Char) : List Char → List Char → List String
  | [], acc => [String.mk acc.reverse]
  | c :: cs, acc =>
    if c = sep then String.mk acc.reverse :: splitChAux sep cs []
    else splitChAux sep cs (c :: acc)

/-- JS `String.prototype.split` with a single-character separator. -/
def jsSplitCh (sep : Char) (s : List Char) : List String := splitChAux sep s []

/-- Does `s` end with the literal pattern `pat`? -/
def endsWithL (pat s : List Char) : Bool := startsWithL pat.reverse s.reverse

/-- ASCII lowercasing (model of JS `toLowerCase`). -/
def chToLower (c : Char) : Char :=
  if chIsUpper c then Char.ofNat (c.toNat + 32) else c

def strToLower (s : List Char) : List Char := s.map chToLower

/-! ### JS `Date` model

A date value is the number of days since 1970-01-01 (all `Date`s in the
source are created at UTC midnight from `YYYY-MM-DD` strings and only
mutated by `setDate`/`setMonth`/`setFullYear`, which preserve the
midnight time-of-day, so day granularity is faithful; the ambient
timezone is modelled as UTC).  Civil conversions follow the standard
proleptic-Gregorian calendar algorithms. -/

structure Civil where
  year : Int
  month : Int
  day : Int
  deriving DecidableEq, Repr

/-- Days since 1970-01-01 of the civil date `y-m-d` (`m` in 1..12; `d`
may be an arbitrary offset within the month). -/
def daysFromCivil (y m d : Int) : Int :=
  let y1 : Int := if m ≤ 2 then y - 1 else y
  let era : Int := Int.fdiv y1 400
  let yoe : Int := y1 - era * 400
  let mp : Int := Int.fmod (m + 9) 12
  let doy : Int := Int.fdiv (153 * mp + 2) 5 + (d - 1)
  let doe : Int := yoe * 365 + Int.fdiv yoe 4 - Int.fdiv yoe 100 + doy
  era * 146097 + doe - 719468

/-- Civil date of a days-since-epoch count. -/
def civilFromDays (z0 : Int) : Civil :=
  let z : Int := z0 + 719468
  let era : Int := Int.fdiv z 146097
  let doe : Int := z - era * 146097
  let yoe : Int :=
    Int.fdiv (doe - Int.fdiv doe 1460 + Int.fdiv doe 36524 - Int.fdiv doe 146096) 365
  let y : Int := yoe + era * 400
  let doy : Int := doe - (365 * yoe + Int.fdiv yoe 4 - Int.fdiv yoe 100)
  let mp : Int := Int.fdiv (5 * doy + 2) 153
  let d : Int := doy - Int.fdiv (153 * mp + 2) 5 + 1
  let m : Int := mp + (if mp < 10 then 3 else -9)
  { year := if m ≤ 2 then y + 1 else y, month := m, day := d }

/-- JS `getDate()` (day of month, 1-based). -/
def getDateE (e : Int) : Int := (civilFromDays e).day

/-- JS `getMonth()` (0-based month). -/
def getMonthE (e : Int) : Int := (civilFromDays e).month - 1

/-- JS `getFullYear()`. -/
def getFullYearE (e : Int) : Int := (civilFromDays e).year

/-- JS `getDay()` (0 = Sunday; 1970-01-01 was a Thursday). -/
def getDayE (e : Int) : Int := Int.emod (e + 4) 7

/-- Normalizing constructor: year `y`, 0-based month `m0` (arbitrary,
rolled into the year) and day `d` (arbitrary, rolled through months),
exactly the JS `Date` field-overflow semantics. -/
def mkDateE (y m0 d : Int) : Int :=
  daysFromCivil (y + Int.fdiv m0 12) (Int.fmod m0 12 + 1) d

/-- JS `setDate(n)`. -/
def setDateE (e n : Int) : Int := e + (n - getDateE e)

/-- JS `setMonth(m0)` (keeps year, day-of-month and time; overflowing
days roll into subsequent months). -/
def setMonthE (e m0 : Int) : Int := mkDateE (getFullYearE e) m0 (getDateE e)

/-- JS `setFullYear(y)`. -/
def setFullYearE (e y : Int) : Int := mkDateE y (getMonthE e) (getDateE e)

/-- Left-pad a numeral with zeros. -/
def padNum (width : Nat) (n : Int) : List Char :=
  let s := (Int.toNat n).repr.data
  List.replicate (width - s.length) '0' ++ s

/-- JS `date.toISOString().split("T")[0]` for a valid (years 1..9999)
date value. -/
def toISODate (e : Int) : String :=
  let c := civilFromDays e
  String.mk (padNum 4 c.year ++ '-' :: padNum 2 c.month ++ '-' :: padNum 2 c.day)

/-- Shape test for the JS regex `^\d{4}-\d{2}-\d{2}$`. -/
def isDateShape : List Char → Bool
  | [a, b, c, d, e, f, g, h, i, j] =>
    chIsDigit a && chIsDigit b && chIsDigit c && chIsDigit d && e = '-' &&
      chIsDigit f && chIsDigit g && h = '-' && chIsDigit i && chIsDigit j
  | _ => false

/-- Digit run to a natural number. -/
def digitsToNat (ds : List Char) : Nat :=
  ds.foldl (fun n c => n * 10 + (c.toNat - 48)) 0

/-- Number of days in the month with 0-based index `m0` of year `y`. -/
def daysInMonthE (y m0 : Int) : Int := getDateE (mkDateE y (m0 + 1) 1 - 1)

/-- JS `new Date("YYYY-MM-DD")`: `none` models an Invalid Date (the
ISO-format parser rejects out-of-range components). -/
def parseISODate (s : List Char) : Option Int :=
  match s with
  | [a, b, c, d, '-', f, g, '-', i, j] =>
    if chIsDigit a && chIsDigit b && chIsDigit c && chIsDigit d &&
        chIsDigit f && chIsDigit g && chIsDigit i && chIsDigit j then
      let y : Int := Int.ofNat (digitsToNat [a, b, c, d])
      let m : Int := Int.ofNat (digitsToNat [f, g])
      let dd : Int := Int.ofNat (digitsToNat [i, j])
      if 1 ≤ m && m ≤ 12 && 1 ≤ dd && dd ≤ daysInMonthE y (m - 1) then
        some (daysFromCivil y m dd)
      else none
    else none
  | _ => none

example : daysFromCivil 1970 1 1 = 0 := by decide
example : civilFromDays 0 = ⟨1970, 1, 1⟩ := by decide
example : toISODate (daysFromCivil 2025 8 3) = "2025-08-03" := by decide
example : getDayE (daysFromCivil 2025 8 3) = 0 := by decide
example : parseISODate "2025-02-29".data = none := by decide
example : parseISODate "2024-02-29".data = some (daysFromCivil 2024 2 29) := by decide
example : setMonthE (daysFromCivil 2025 1 31) 1 = daysFromCivil 2025 3 3 := by decide

/-! ### Line grammar: `TodoParser` (src/parser.ts, bundled in main.js)

`parseTodoLine` builds a `TodoItem`; all fields follow the JS object
shape (`""` encodes an absent date/priority, `descriptionNotes` is an
optional property, `keyValuePairs` is an insertion-ordered object). -/

structure Task where
  completed : Bool
  priority : String
  creationDate : String
  completionDate : String
  description : String
  descriptionNotes : Option String
  projects : List String
  contexts : List String
  keyValuePairs : List (String × String)
  raw : String
  deriving DecidableEq, Repr

/-- JS object assignment `obj[key] = value`: replace in place or append. -/
def insertKV (m : List (String × String)) (k v : String) : List (String × String) :=
  match m with
  | [] => [(k, v)]
  | (k1, v1) :: rest => if k1 = k then (k, v) :: rest else (k1, v1) :: insertKV rest k v

/-- Step 1 of `parseTodoLine`: consume a leading `x` token. -/
def consumeX (parts : List (List Char)) : Bool × List (List Char) :=
  match parts with
  | t :: rest => if t = ['x'] then (true, rest) else (false, parts)
  | [] => (false, parts)

/-- Steps 2 and 4 of `parseTodoLine`: consume a truthy token matching
`^\d{4}-\d{2}-\d{2}$`. -/
def consumeDate (parts : List (List Char)) : List Char × List (List Char) :=
  match parts with
  | t :: rest => if t ≠ [] && isDateShape t then (t, rest) else ([], parts)
  | [] => ([], parts)

/-- Step 3 of `parseTodoLine`: consume a truthy token matching
`^\([A-Z]\)$`. -/
def consumePriority (parts : List (List Char)) : List Char × List (List Char) :=
  match parts with
  | ['(', x, ')'] :: rest => if chIsUpper x then ([x], rest) else ([], parts)
  | _ => ([], parts)

/-- The match `remainingLine.match(/\|\|(.+)$/)`: capture of the first
`||` that is followed by at least one character, with everything to the
end of the line free of line terminators (`.` excludes them). -/
def findDescNotes : List Char → Option (List Char)
  | [] => none
  | c :: cs =>
    if startsWithL ['|', '|'] (c :: cs) && (c :: cs).drop 2 ≠ [] &&
        ((c :: cs).drop 2).all (fun ch => !chIsNl ch) then
      some ((c :: cs).drop 2)
    else findDescNotes cs

/-- Scanner for `replace(/\s*\|\|.+$/, "")` (see `stripNotesSuffix`). -/
def stripNotesGo (racc : List Char) : List Char → List Char
  | [] => racc.reverse
  | c :: cs =>
    let r := (c :: cs).dropWhile chIsWs
    if startsWithL ['|', '|'] r && r.drop 2 ≠ [] &&
        (r.drop 2).all (fun ch => !chIsNl ch) then
      racc.reverse
    else stripNotesGo (c :: racc) cs

/-- The replacement `remainingLine.replace(/\s*\|\|.+$/, "")`: drop from
the leftmost position where optional whitespace is followed by `||` and
at least one terminator-free character running to the end. -/
def stripNotesSuffix (s : List Char) : List Char :=
  stripNotesGo [] s

/-- The global replacement `.replace(/\\n/g, "\n")` unescaping notes. -/
def unescapeNl : List Char → List Char
  | [] => []
  | '\\' :: 'n' :: rest => '\n' :: unescapeNl rest
  | c :: rest => c :: unescapeNl rest

/-- JS `part.split(":", 2)`: the first two `:`-separated segments. -/
def splitColon2 (s : List Char) : List Char × List Char :=
  let k := s.takeWhile (fun c => c ≠ ':')
  let rest := s.dropWhile (fun c => c ≠ ':')
  (k, (rest.drop 1).takeWhile (fun c => c ≠ ':'))

/-- The `remainingParts.forEach` classifier body of `parseTodoLine`. -/
def classifyToken (it : Task) (part : List Char) : Task :=
  if startsWithL ['+'] part && part.length > 1 then
    { it with projects := it.projects ++ [String.mk (part.drop 1)] }
  else if startsWithL ['@'] part && part.length > 1 then
    { it with contexts := it.contexts ++ [String.mk (part.drop 1)] }
  else if containsL part [':'] && !containsL part [' '] &&
      !startsWithL ['h', 't', 't', 'p'] part then
    let kv := splitColon2 part
    if kv.1 ≠ [] && kv.2 ≠ [] then
      { it with keyValuePairs := insertKV it.keyValuePairs (String.mk kv.1) (String.mk kv.2) }
    else it
  else it

/-- `TodoParser.parseTodoLine` (total: every string yields a `Task`). -/
def parseTodoLine (line : String) : Task :=
  let parts := jsSplitWs (trimL line.data)
  let cx := consumeX parts
  let cd := if cx.1 then consumeDate cx.2 else ([], cx.2)
  let pr := consumePriority cd.2
  let cr := consumeDate pr.2
  let remainingLine := joinSp cr.2
  let dn := findDescNotes remainingLine
  let working :=
    match dn with
    | some _ => trimL (stripNotesSuffix remainingLine)
    | none => remainingLine
  let base : Task :=
    { completed := cx.1
      priority := String.mk pr.1
      creationDate := String.mk cr.1
      completionDate := String.mk cd.1
      description := String.mk working
      descriptionNotes := dn.map (fun cap => String.mk (unescapeNl (trimL cap)))
      projects := []
      contexts := []
      keyValuePairs := []
      raw := line }
  (splitWsAux working []).foldl classifyToken base

/-- `TodoParser.parseTodoTxt`: split on newlines, drop blank lines,
parse the rest. -/
def parseTodoTxt (content : String) : List Task :=
  ((jsSplitCh '\n' content.data).filter (fun l => trimL l.data ≠ [])).map parseTodoLine

example :
    parseTodoLine "(A) 2025-08-03 @Features Buy milk +Inbox due:2025-06-25" =
      { completed := false, priority := "A", creationDate := "2025-08-03",
        completionDate := "", description := "@Features Buy milk +Inbox due:2025-06-25",
        descriptionNotes := none, projects := ["Inbox"], contexts := ["Features"],
        keyValuePairs := [("due", "2025-06-25")],
        raw := "(A) 2025-08-03 @Features Buy milk +Inbox due:2025-06-25" } := by
  decide

/-! ### `RecurrenceCalculator` (src/utils/recurrenceCalculator.ts)

The `while (date.getDate() !== targetDate) date.setDate(0)` loop is
modelled with fuel (`walkDay`); `none` models the executions where the
JS loop never terminates (e.g. a `NaN` target) or `toISOString` throws
on an Invalid Date. -/

/-- The regex `^(\d+)([dwmy])$`. -/
def simpleRecMatch (s : List Char) : Option (Int × Char) :=
  match s.reverse with
  | [] => none
  | u :: rds =>
    if (u = 'd' || u = 'w' || u = 'm' || u = 'y') && rds ≠ [] && rds.all chIsDigit then
      some (Int.ofNat (digitsToNat rds.reverse), u)
    else none

/-- `RecurrenceCalculator.getDayNumber` (unknown names map to `-1`). -/
def getDayNumber (day : String) : Int :=
  let d := String.mk (strToLower day.data)
  if d = "sun" then 0 else if d = "mon" then 1 else if d = "tue" then 2
  else if d = "wed" then 3 else if d = "thu" then 4 else if d = "fri" then 5
  else if d = "sat" then 6 else -1

/-- `RecurrenceCalculator.getMonthNumber` (unknown names map to `-1`). -/
def getMonthNumber (month : String) : Int :=
  let m := String.mk (strToLower month.data)
  if m = "jan" then 0 else if m = "feb" then 1 else if m = "mar" then 2
  else if m = "apr" then 3 else if m = "may" then 4 else if m = "jun" then 5
  else if m = "jul" then 6 else if m = "aug" then 7 else if m = "sep" then 8
  else if m = "oct" then 9 else if m = "nov" then 10 else if m = "dec" then 11
  else -1

/-- `RecurrenceCalculator.calculateWeeklyRecurrence`.  `weeks` is only
forced on the paths that use it (a `NaN` interval still succeeds on the
paths that never read `weeks`). -/
def calculateWeeklyRecurrence (date : Int) (interval : String)
    (dayParts : List String) : Option Int :=
  let weeks := jsParseInt interval.data
  let targetDays :=
    List.insertionSort (fun a b => a ≤ b) (dayParts.map (fun d => getDayNumber d))
  let cur := getDayE date
  match targetDays.indexOf? cur with
  | some i =>
    if i < targetDays.length - 1 then
      some (setDateE date (getDateE date + (targetDays.getD (i + 1) 0 - cur)))
    else
      weeks.map (fun w => setDateE date (getDateE date + (w * 7 - cur + targetDays.headD 0)))
  | none =>
    match targetDays.find? (fun d => cur < d) with
    | some t => some (setDateE date (getDateE date + (t - cur)))
    | none =>
      weeks.map (fun w => setDateE date (getDateE date + (w * 7 - cur + targetDays.headD 0)))

/-- The `while (date.getDate() !== targetDate) date.setDate(0)` walk,
with fuel; `setDate(0)` moves to the last day of the previous month. -/
def walkDay : Nat → Int → Int → Option Int
  | 0, e, t => if getDateE e = t then some e else none
  | f + 1, e, t => if getDateE e = t then some e else walkDay f (setDateE e 0) t

/-- `RecurrenceCalculator.calculateMonthlyRecurrence`.  In the
multi-date branch, JS tests `!nextTargetDate`, so a found target of `0`
is treated as not found (falsiness). -/
def calculateMonthlyRecurrence (date currentDate : Int) (interval : String)
    (dateParts : List String) : Option Int :=
  let months := jsParseInt interval.data
  match dateParts with
  | [dp] =>
    match jsParseInt dp.data with
    | none => none
    | some t0 =>
      let t := min t0 31
      let d1 := setDateE date t
      let d2 : Option Int :=
        if d1 ≤ currentDate then months.map (fun ms => setMonthE d1 (getMonthE d1 + ms))
        else some d1
      d2.bind (fun d => walkDay 1000 d t)
  | _ =>
    let targets :=
      List.insertionSort (fun a b => a ≤ b)
        ((dateParts.filterMap (fun d => jsParseInt d.data)).map (fun d => min d 31))
    let notFound : Option Int :=
      match targets.head? with
      | none => none
      | some t => months.bind (fun ms => walkDay 1000 (setDateE (setMonthE date (getMonthE date + ms)) t) t)
    match targets.find? (fun t => currentDate < setDateE date t) with
    | some t =>
      if t = 0 then notFound
      else walkDay 1000 (setDateE (setMonthE date (getMonthE date + 0)) t) t
    | none => notFound

/-- `RecurrenceCalculator.calculateYearlyRecurrence`. -/
def calculateYearlyRecurrence (date currentDate : Int) (parts : List String) :
    Option Int :=
  match parts with
  | monthName :: p1 :: _ =>
    let targetMonth := getMonthNumber monthName
    if targetMonth = -1 then some currentDate
    else
      match jsParseInt p1.data with
      | none => none
      | some td =>
        let d1 := setDateE (setMonthE date targetMonth) td
        some (if d1 ≤ currentDate then setFullYearE d1 (getFullYearE d1 + 1) else d1)
  | _ => none

/-- `RecurrenceCalculator.calculateNextDueDate`, producing the date
value (epoch days) before ISO formatting. -/
def calculateNextDueDateE (currentDate : Int) (recPattern : String) : Option Int :=
  match simpleRecMatch recPattern.data with
  | some (n, u) =>
    some (if u = 'd' then setDateE currentDate (getDateE currentDate + n)
      else if u = 'w' then setDateE currentDate (getDateE currentDate + n * 7)
      else if u = 'm' then setMonthE currentDate (getMonthE currentDate + n)
      else setFullYearE currentDate (getFullYearE currentDate + n))
  | none =>
    let parts := jsSplitCh ',' recPattern.data
    if parts.length < 2 then some currentDate
    else
      match parts with
      | [] => some currentDate
      | interval :: rest =>
        if endsWithL ['w'] interval.data then
          calculateWeeklyRecurrence currentDate interval rest
        else if endsWithL ['m'] interval.data then
          calculateMonthlyRecurrence currentDate currentDate interval rest
        else calculateYearlyRecurrence currentDate currentDate parts

/-- `RecurrenceCalculator.calculateNextDueDate` (ISO string result). -/
def calculateNextDueDate (currentDate : Int) (recPattern : String) : Option String :=
  (calculateNextDueDateE currentDate recPattern).map toISODate

example :
    calculateNextDueDate (daysFromCivil 2025 8 3) "1w,sun,mon,fri" = some "2025-08-04" := by
  decide
example :
    calculateNextDueDate (daysFromCivil 2025 1 1) "1m,1" = some "2025-02-01" := by
  decide
example :
    calculateNextDueDate (daysFromCivil 2025 1 15) "1y" = some "2026-01-15" := by
  decide
example :
    calculateNextDueDate (daysFromCivil 2025 1 15) "feb,28" = some "2025-02-28" := by
  decide
example :
    calculateNextDueDate (daysFromCivil 2025 1 15) "5x" = some "2025-01-15" := by
  decide

/-! ### `TaskService` (src/services/taskService.ts, the version cited by
the claims)

`completeTask` and `uncompleteTask` only compute new raw lines from the
task's `raw` string (the file write is external glue); they are embedded
as pure line transformers.  `completeTaskLines` returns the rewritten
completed line together with the optional recurrence sibling line;
`none` models the executions where the recurrence computation throws or
hangs (propagating out of `completeTask` before any write). -/

/-- The regex `^\(([A-Z])\)\s+(.+)$` of
`TaskService.extractPriorityFromTaskLine`: returns the `cleanedLine`
capture and the priority letter; on no match the line is unchanged.  If
everything after `\s+` would be whitespace, `\s+` backtracks one
character into the `(.+)` capture. -/
def extractPriorityC (s : List Char) : List Char × Option Char :=
  match s with
  | c1 :: x :: c3 :: rest =>
    if c1 = '(' && chIsUpper x && c3 = ')' then
      let w := rest.takeWhile chIsWs
      let r := rest.dropWhile chIsWs
      if w = [] then (s, none)
      else if r ≠ [] then
        if r.all (fun c => !chIsNl c) then (r, some x) else (s, none)
      else
        match rest.getLast? with
        | some c => if chIsNl c then (s, none) else ([c], some x)
        | none => (s, none)
    else (s, none)
  | _ => (s, none)

/-- Match of `pri:([A-Z])\b` at the head of a string. -/
def priAt : List Char → Option (Char × List Char)
  | c1 :: c2 :: c3 :: c4 :: x :: rest =>
    if c1 = 'p' && c2 = 'r' && c3 = 'i' && c4 = ':' && chIsUpper x &&
        (match rest with | [] => true | c :: _ => !chIsWord c) then
      some (x, rest)
    else none
  | _ => none

/-- Match of `\s*pri:([A-Z])\b` anchored at the current position (the
greedy `\s*` must end exactly where `pri:` begins). -/
def tryPriAt (s : List Char) : Option (Char × List Char) := priAt (s.dropWhile chIsWs)

/-- Leftmost-match scanner for `/\s*pri:([A-Z])\b/`: returns the text
before the match, the captured letter, and the text after the match. -/
def findPriGo (racc : List Char) : List Char → Option (List Char × Char × List Char)
  | [] => none
  | c :: cs =>
    match tryPriAt (c :: cs) with
    | some (x, rest) => some (racc.reverse, x, rest)
    | none => findPriGo (c :: racc) cs

def findPriSplit (s : List Char) : Option (List Char × Char × List Char) :=
  findPriGo [] s

/-- Match test for `(\s+\|\|.*)$` at the current position (with `.` not
matching line terminators, `.*$` requires the rest of the string to be
terminator-free). -/
def notesAt (s : List Char) : Bool :=
  s.takeWhile chIsWs ≠ [] && startsWithL ['|', '|'] (s.dropWhile chIsWs) &&
    ((s.dropWhile chIsWs).drop 2).all (fun c => !chIsNl c)

/-- Leftmost-match scanner for `/(\s+\|\|.*)$/`: splits the line into
the part before the match and the matched suffix (`match[1]`, which
`lastIndexOf` then locates at this same position since the suffix
determines it). -/
def findNotesGo (racc : List Char) : List Char → Option (List Char × List Char)
  | [] => none
  | c :: cs =>
    if notesAt (c :: cs) then some (racc.reverse, c :: cs)
    else findNotesGo (c :: racc) cs

def findNotesSplit (s : List Char) : Option (List Char × List Char) :=
  findNotesGo [] s

/-- Leftmost-match scanner for `/\brec:(\S+)/` (the `\b` before `rec`
requires the previous character, if any, to be a non-word character). -/
def findRecGo (prev : Option Char) : List Char → Option (List Char)
  | [] => none
  | c :: cs =>
    if (match prev with | none => true | some p => !chIsWord p) &&
        startsWithL ['r', 'e', 'c', ':'] (c :: cs) &&
        ((c :: cs).drop 4).takeWhile (fun ch => !chIsWs ch) ≠ [] then
      some (((c :: cs).drop 4).takeWhile (fun ch => !chIsWs ch))
    else findRecGo (some c) cs

/-- `raw.match(/\brec:(\S+)/)`, capture only. -/
def findRec (s : List Char) : Option String := (findRecGo none s).map String.mk

/-- Leftmost-match scanner for `/due:(\d{4}-\d{2}-\d{2})/`, capture. -/
def findDueGo : List Char → Option (List Char)
  | [] => none
  | c :: cs =>
    if startsWithL ['d', 'u', 'e', ':'] (c :: cs) &&
        isDateShape (((c :: cs).drop 4).take 10) then
      some (((c :: cs).drop 4).take 10)
    else findDueGo cs

def findDue (s : List Char) : Option String := (findDueGo s).map String.mk

/-- `replace(/due:\d{4}-\d{2}-\d{2}/, "due:" ++ nd)` (first match). -/
def replaceDueGo (nd racc : List Char) : List Char → List Char
  | [] => racc.reverse
  | c :: cs =>
    if startsWithL ['d', 'u', 'e', ':'] (c :: cs) &&
        isDateShape (((c :: cs).drop 4).take 10) then
      racc.reverse ++ ('d' :: 'u' :: 'e' :: ':' :: nd) ++ ((c :: cs).drop 14)
    else replaceDueGo nd (c :: racc) cs

def replaceDue (s nd : List Char) : List Char := replaceDueGo nd [] s

/-- `replace(/^x\s+\d{4}-\d{2}-\d{2}\s+/, "")`. -/
def stripLeadingXDate (s : List Char) : List Char :=
  match s with
  | 'x' :: rest =>
    let w1 := rest.takeWhile chIsWs
    let r1 := rest.dropWhile chIsWs
    if w1 ≠ [] && isDateShape (r1.take 10) then
      let r2 := r1.drop 10
      if r2.takeWhile chIsWs ≠ [] then r2.dropWhile chIsWs else s
    else s
  | _ => s

/-- The completed-line construction of `TaskService.completeTask`:
`x <today> <cleanedLine>`, with the extracted priority re-inserted as
`pri:X` before a `||` notes suffix when present, else appended. -/
def buildCompletedLine (today : String) (cleaned : List Char) (prio : Option Char) :
    List Char :=
  let base := 'x' :: ' ' :: (today.data ++ ' ' :: cleaned)
  match prio with
  | none => base
  | some x =>
    match findNotesSplit base with
    | some (before, notePart) => before ++ (' ' :: 'p' :: 'r' :: 'i' :: ':' :: [x]) ++ notePart
    | none => base ++ (' ' :: 'p' :: 'r' :: 'i' :: ':' :: [x])

/-- The recurrence-sibling computation of `TaskService.completeTask`:
`some none` when no sibling is appended, `some (some line)` when one is,
and `none` when the recurrence computation throws or hangs (aborting
`completeTask` before any write). -/
def completeSibling (raw : String) : Option (Option String) :=
  match findRec raw.data with
  | none => some none
  | some pat =>
    match findDue raw.data with
    | none => some none
    | some due =>
      match parseISODate due.data with
      | none => none
      | some e =>
        (calculateNextDueDate e pat).map (fun nd =>
          some (String.mk (stripLeadingXDate (replaceDue raw.data nd.data))))

/-- `TaskService.completeTask` as a pure function from the task's `raw`
line and today's date to the rewritten completed line and the optional
appended recurrence sibling. -/
def completeTaskLines (today raw : String) : Option (String × Option String) :=
  (completeSibling raw).map (fun sb =>
    (String.mk (buildCompletedLine today (extractPriorityC raw.data).1
      (extractPriorityC raw.data).2), sb))

/-- `TaskService.uncompleteTask` as a pure line transformer: drop a
leading `x <date>`, re-join with single spaces, and restore a `pri:X`
key-value (matched anywhere via `/\s*pri:([A-Z])\b/`) as a leading
`(X)` marker. -/
def uncompleteTaskLine (raw : String) : String :=
  let parts := jsSplitWs (trimL raw.data)
  let parts1 :=
    match parts with
    | p0 :: p1 :: rest => if p0 = ['x'] && isDateShape p1 then rest else p0 :: p1 :: rest
    | other => other
  let t := joinSp parts1
  match findPriSplit t with
  | some (before, x, after) => String.mk ('(' :: x :: ')' :: ' ' :: (before ++ after))
  | none => String.mk t

example :
    completeTaskLines "2025-01-15" "(B) 2025-01-01 Pay rent rec:1m,1 due:2025-01-01" =
      some ("x 2025-01-15 2025-01-01 Pay rent rec:1m,1 due:2025-01-01 pri:B",
        some "(B) 2025-01-01 Pay rent rec:1m,1 due:2025-02-01") := by
  decide

example :
    completeTaskLines "2025-01-15" "(A) hello world" =
      some ("x 2025-01-15 hello world pri:A", none) := by
  decide

example : uncompleteTaskLine "x 2025-01-15 hello world pri:A" = "(A) hello world" := by
  decide

example :
    completeTaskLines "2025-01-15" "(A) ||note" = some ("x 2025-01-15 pri:A ||note", none) := by
  decide

example : uncompleteTaskLine "x 2025-01-15 pri:A ||note" = "(A)  ||note" := by
  decide

/-! ### `FilterManager` (src/managers/filterManager.ts, bundled in
main.js)

`applyFilters` reads the ambient clock (`new Date()`) only inside
`isTaskInTimeFilter`; the current ISO date string is passed explicitly
as `today`.  `Array.prototype.sort` (stable since ES2019) with the
`sortTasks` comparator is modelled by Mathlib's stable
`List.insertionSort` on the comparator's non-strict order. -/

structure FilterState where
  sortOption : String
  searchQuery : String
  contextFilter : String
  selectedProject : String
  selectedTimeFilter : String
  archivedFilter : Bool
  completedFilter : Bool
  deriving DecidableEq, Repr

/-- `FilterManager.isTaskInTimeFilter`. -/
def isTaskInTimeFilter (s : FilterState) (today : String) (it : Task) : Bool :=
  match findDue it.description.data with
  | none => false
  | some due =>
    if s.selectedTimeFilter = "today" then jsStrLe due today
    else if s.selectedTimeFilter = "upcoming" then jsStrLt today due
    else true

/-- Stage 1 of `applyFilters`: the categorical completed/archived/active
split. -/
def stageCategorical (s : FilterState) (items : List Task) : List Task :=
  if s.completedFilter then items.filter (fun it => it.completed)
  else if s.archivedFilter then items.filter (fun it => it.projects.contains "Archived")
  else items.filter (fun it => !it.completed && !it.projects.contains "Archived")

/-- Stage 2 of `applyFilters`: the time filter. -/
def stageTime (s : FilterState) (today : String) (items : List Task) : List Task :=
  if s.selectedTimeFilter ≠ "" && !s.archivedFilter && !s.completedFilter then
    items.filter (isTaskInTimeFilter s today)
  else items

/-- Stage 3 of `applyFilters`: the free-text search. -/
def stageSearch (s : FilterState) (items : List Task) : List Task :=
  if trimL s.searchQuery.data ≠ [] then
    let q := strToLower s.searchQuery.data
    items.filter (fun it =>
      containsL (strToLower it.description.data) q ||
        it.projects.any (fun p => containsL (strToLower p.data) q) ||
        it.contexts.any (fun c => containsL (strToLower c.data) q))
  else items

/-- Stage 4 of `applyFilters`: the context filter with the `"NONE"`
sentinel. -/
def stageContext (s : FilterState) (items : List Task) : List Task :=
  if trimL s.contextFilter.data ≠ [] then
    if s.contextFilter = "NONE" then items.filter (fun it => it.contexts.isEmpty)
    else items.filter (fun it => it.contexts.contains s.contextFilter)
  else items

/-- Stage 5 of `applyFilters`: the project filter (`"Inbox"` also
matches tasks without projects; skipped entirely in the archived
view). -/
def stageProject (s : FilterState) (items : List Task) : List Task :=
  if trimL s.selectedProject.data ≠ [] && !s.archivedFilter then
    if s.selectedProject = "Inbox" then
      items.filter (fun it => it.projects.isEmpty || it.projects.contains "Inbox")
    else items.filter (fun it => it.projects.contains s.selectedProject)
  else items

/-- JS `a || "fallback"` for strings (empty is falsy). -/
def jsOrStr (s d : String) : String := if s = "" then d else s

/-- The `duedate` sort key: `due:` capture or the `"9999-99-99"`
sentinel. -/
def dueKey (it : Task) : String := (findDue it.description.data).getD "9999-99-99"

/-- The primary sort key of the comparator: `aCompleted` as 0/1. -/
def completedRank (it : Task) : Int := if it.completed then 1 else 0

/-- The `sortOption`-specific secondary key comparison of `sortTasks`
(the `switch`; unknown options compare equal). -/
def taskCmpKey (s : FilterState) (a b : Task) : Int :=
  if s.sortOption = "priority" then
    jsStrCmp (jsOrStr a.priority "Z") (jsOrStr b.priority "Z")
  else if s.sortOption = "creation" then
    jsStrCmp (jsOrStr b.creationDate "0000-00-00") (jsOrStr a.creationDate "0000-00-00")
  else if s.sortOption = "completion" then
    jsStrCmp (jsOrStr b.completionDate "0000-00-00") (jsOrStr a.completionDate "0000-00-00")
  else if s.sortOption = "alphabetical" then jsStrCmp a.description b.description
  else if s.sortOption = "projects" then
    jsStrCmp (a.projects.headD "zzz") (b.projects.headD "zzz")
  else if s.sortOption = "contexts" then
    jsStrCmp (a.contexts.headD "zzz") (b.contexts.headD "zzz")
  else if s.sortOption = "duedate" then jsStrCmp (dueKey a) (dueKey b)
  else 0

/-- The `sortTasks` comparator: completed tasks after incomplete ones,
then the `sortOption`-specific key comparison. -/
def taskCmp (s : FilterState) (a b : Task) : Int :=
  if completedRank a ≠ completedRank b then completedRank a - completedRank b
  else taskCmpKey s a b

/-- The non-strict order induced by the comparator (an element sorts no
later than another iff the comparator is non-positive). -/
def taskLe (s : FilterState) (a b : Task) : Prop := taskCmp s a b ≤ 0

instance (s : FilterState) : DecidableRel (taskLe s) :=
  fun _ _ => Int.decLe _ _

/-- `FilterManager.sortTasks` (a stable sort by the comparator). -/
def sortTasks (s : FilterState) (items : List Task) : List Task :=
  List.insertionSort (taskLe s) items

/-- `FilterManager.applyFilters`: the five narrowing stages in order,
then the sort. -/
def applyFilters (s : FilterState) (today : String) (items : List Task) : List Task :=
  sortTasks s (stageProject s (stageContext s (stageSearch s
    (stageTime s today (stageCategorical s items)))))

/-! ## Claims -/

/-! ### C2: simple `<N>m` offset on 2025-01-31 -/

/-- C2, counterexample: `calculateNextDueDate(2025-01-31, "1m")` does
not return 2025-02-28 (the last valid day of February). -/
theorem claim_C2_counterexample :
    calculateNextDueDate (daysFromCivil 2025 1 31) "1m" ≠ some "2025-02-28" := by
  decide

/-- C2, amended: the simple `<N>m` offset uses the JS `setMonth`
field-overflow semantics, which rolls the nonexistent day-of-month
forward into the next month instead of clamping, so
`calculateNextDueDate(2025-01-31, "1m")` returns 2025-03-03. -/
theorem claim_C2_simple_month_overflow :
    calculateNextDueDate (daysFromCivil 2025 1 31) "1m" = some "2025-03-03" ∧
      calculateNextDueDate (daysFromCivil 2025 1 31) "1m" =
        some (toISODate (setMonthE (daysFromCivil 2025 1 31)
          (getMonthE (daysFromCivil 2025 1 31) + 1))) := by
  constructor <;> decide

/-! ### C3: completing `"(B) 2025-01-01 Pay rent rec:1m,1 due:2025-01-01"` -/

/-- C3, counterexample: the completed rewrite is not
`"x 2025-01-15 Pay rent rec:1m,1 due:2025-01-01 pri:B"` (the creation
date is not dropped). -/
theorem claim_C3_counterexample :
    completeTaskLines "2025-01-15" "(B) 2025-01-01 Pay rent rec:1m,1 due:2025-01-01" ≠
      some ("x 2025-01-15 Pay rent rec:1m,1 due:2025-01-01 pri:B",
        some "(B) 2025-01-01 Pay rent rec:1m,1 due:2025-02-01") := by
  decide

/-- C3, amended: completing the task on 2025-01-15 produces the original
rewritten as `"x 2025-01-15 2025-01-01 Pay rent rec:1m,1 due:2025-01-01
pri:B"` (the creation date stays in place after the completion date) and
the appended sibling `"(B) 2025-01-01 Pay rent rec:1m,1
due:2025-02-01"`. -/
theorem claim_C3_complete_recurring :
    completeTaskLines "2025-01-15" "(B) 2025-01-01 Pay rent rec:1m,1 due:2025-01-01" =
      some ("x 2025-01-15 2025-01-01 Pay rent rec:1m,1 due:2025-01-01 pri:B",
        some "(B) 2025-01-01 Pay rent rec:1m,1 due:2025-02-01") := by
  decide

/-! ### C4: unknown day names do not degrade to "unchanged"

The yearly branch guards `getMonthNumber === -1` and returns
`currentDue`, showing the intended graceful degradation, but the weekly
branch has no such guard: `getDayNumber` yields `-1`, which flows into
the day arithmetic and shifts the date. -/

/-- C4, divergence witness: from Sunday 2025-08-03, the malformed
weekly pattern `"1w,xyz"` returns 2025-08-09 (`weeks*7 - day + (-1)` = 6
days later), not the unchanged 2025-08-03; the yearly and
short-pattern branches, in contrast, do return the input unchanged. -/
theorem claim_C4_weekly_unknown_day_changes_date :
    calculateNextDueDate (daysFromCivil 2025 8 3) "1w,xyz" = some "2025-08-09" ∧
      calculateNextDueDate (daysFromCivil 2025 8 3) "1w,xyz" ≠
        some (toISODate (daysFromCivil 2025 8 3)) ∧
      calculateNextDueDate (daysFromCivil 2025 8 3) "badmonth,5" = some "2025-08-03" ∧
      calculateNextDueDate (daysFromCivil 2025 8 3) "5q" = some "2025-08-03" := by
  refine ⟨by decide, by decide, by decide, by decide⟩

/-! ### C6: the monthly walk-back is not a clamp to the landed month -/

/-- C6, counterexample: `calculateNextDueDate(2025-02-10, "1m,31")`
returns 2025-01-31 — the `setDate(0)` walk-back runs past the last day
of February (28 ≠ 31) into January — not the last valid day of the
month the calculation landed in (2025-02-28, nor 2025-03-31). -/
theorem claim_C6_counterexample :
    calculateNextDueDate (daysFromCivil 2025 2 10) "1m,31" = some "2025-01-31" ∧
      calculateNextDueDate (daysFromCivil 2025 2 10) "1m,31" ≠ some "2025-02-28" ∧
      calculateNextDueDate (daysFromCivil 2025 2 10) "1m,31" ≠ some "2025-03-31" := by
  refine ⟨by decide, by decide, by decide⟩

/-- The walk loop only exits on a day-of-month equal to the target. -/
theorem walkDay_day (f : Nat) (e t r : Int) (h : walkDay f e t = some r) :
    getDateE r = t := by
  induction f generalizing e with
  | zero =>
    by_cases hc : getDateE e = t
    · simp only [walkDay, hc, if_true, Option.some.injEq] at h
      exact h ▸ hc
    · simp [walkDay, hc] at h
  | succ f ih =>
    by_cases hc : getDateE e = t
    · simp only [walkDay, hc, if_true, Option.some.injEq] at h
      exact h ▸ hc
    · simp only [walkDay, hc, if_false] at h
      exact ih _ h

/-- C6, amended: whenever `calculateMonthlyRecurrence` terminates, the
result's day-of-month equals one of the (clamped, `min · 31`) targets of
the pattern — the walk-back exits only when the day field matches the
target exactly, stepping into whatever earlier month has that many days
(possibly before `currentDue`) — it is not a clamp to the last valid day
of the month the calculation lands in. -/
theorem claim_C6_walkback_day (date currentDate : Int) (interval : String)
    (dateParts : List String) (r : Int)
    (h : calculateMonthlyRecurrence date currentDate interval dateParts = some r) :
    ∃ t ∈ (dateParts.filterMap (fun d => jsParseInt d.data)).map (fun d => min d 31),
      getDateE r = t := by
  unfold calculateMonthlyRecurrence at h
  rcases dateParts with _ | ⟨dp, _ | ⟨dp2, dps⟩⟩
  · simp at h
  · -- single-date branch
    dsimp only at h
    rcases hp : jsParseInt dp.data with _ | t0
    · rw [hp] at h; simp at h
    · rw [hp] at h
      simp only [Option.bind_eq_bind, Option.bind_eq_some] at h
      obtain ⟨d, _, hw⟩ := h
      exact ⟨min t0 31, by simp [hp], walkDay_day _ _ _ _ hw⟩
  · -- multi-date branch
    dsimp only at h
    set targs :=
      List.insertionSort (fun a b => a ≤ b)
        (((dp :: dp2 :: dps).filterMap (fun d => jsParseInt d.data)).map
          (fun d => min d 31)) with hT
    have hmem : ∀ t, t ∈ targs →
        t ∈ ((dp :: dp2 :: dps).filterMap (fun d => jsParseInt d.data)).map
          (fun d => min d 31) := by
      intro t htt
      rw [hT] at htt
      exact (List.mem_insertionSort _).mp htt
    have hnf : ∀ t, targs.head? = some t →
        (jsParseInt interval.data).bind
            (fun ms => walkDay 1000 (setDateE (setMonthE date (getMonthE date + ms)) t) t) =
          some r →
        ∃ u ∈ ((dp :: dp2 :: dps).filterMap (fun d => jsParseInt d.data)).map
            (fun d => min d 31), getDateE r = u := by
      intro t hht hbind
      rcases hmi : jsParseInt interval.data with _ | ms
      · rw [hmi] at hbind; simp at hbind
      · rw [hmi] at hbind
        simp only [Option.some_bind] at hbind
        exact ⟨t, hmem t (List.mem_of_mem_head? hht), walkDay_day _ _ _ _ hbind⟩
    rcases hfind : targs.find? (fun t => decide (currentDate < setDateE date t)) with _ | t
    · rw [hfind] at h
      dsimp only at h
      rcases hht : targs.head? with _ | t
      · rw [hht] at h; simp at h
      · rw [hht] at h; exact hnf t hht h
    · rw [hfind] at h
      dsimp only at h
      by_cases ht0 : t = 0
      · rw [if_pos ht0] at h
        rcases hht : targs.head? with _ | u
        · rw [hht] at h; simp at h
        · rw [hht] at h; exact hnf u hht h
      · rw [if_neg ht0] at h
        exact ⟨t, hmem t (List.mem_of_find?_eq_some hfind), walkDay_day _ _ _ _ h⟩

/-- C6, witness for the amended theorem at the counterexample input. -/
theorem claim_C6_walkback_day_witness :
    ∃ t ∈ (["31"].filterMap (fun d => jsParseInt d.data)).map (fun d => min d 31),
      getDateE (daysFromCivil 2025 1 31) = t :=
  claim_C6_walkback_day (daysFromCivil 2025 2 10) (daysFromCivil 2025 2 10) "1m" ["31"]
    (daysFromCivil 2025 1 31) (by decide)

/-! ### C7: the key-value token rule -/

/-- C7, counterexample: in `"+k:v a:b:c"`, the token `+k:v` (which
contains `:`, has no space, and does not start with `http`) is
classified as a project, not split into a key-value pair, and the token
`a:b:c` is stored with value `"b"` (the segment up to the second `:`),
not `"b:c"` (everything after the first `:`). -/
theorem claim_C7_counterexample :
    (parseTodoLine "+k:v a:b:c").keyValuePairs = [("a", "b")] ∧
      ("+k", "v") ∉ (parseTodoLine "+k:v a:b:c").keyValuePairs ∧
      ("a", "b:c") ∉ (parseTodoLine "+k:v a:b:c").keyValuePairs := by
  refine ⟨by decide, by decide, by decide⟩

/-- C7, amended: a token that contains `:`, has no embedded space, does
not start with `http`, and is not already claimed by the project/context
branches (does not start with `+` or `@` with length > 1) is split on
`:`, and when both the key and the first value segment are non-empty the
pair is stored, the value being the text between the first and second
`:` (JS `split(":", 2)`), not everything after the first `:`. -/
theorem claim_C7_kv_classification (it : Task) (part : List Char)
    (hplus : ¬(startsWithL ['+'] part = true ∧ 1 < part.length))
    (hat : ¬(startsWithL ['@'] part = true ∧ 1 < part.length))
    (hcolon : containsL part [':'] = true)
    (hspace : containsL part [' '] = false)
    (hhttp : startsWithL ['h', 't', 't', 'p'] part = false)
    (hk : (splitColon2 part).1 ≠ [])
    (hv : (splitColon2 part).2 ≠ []) :
    (classifyToken it part).keyValuePairs =
      insertKV it.keyValuePairs (String.mk (splitColon2 part).1)
        (String.mk (splitColon2 part).2) := by
  unfold classifyToken
  have e1 : (startsWithL ['+'] part && decide (part.length > 1)) = false := by
    rcases hsw : startsWithL ['+'] part with _ | _
    · simp
    · simp only [Bool.true_and, decide_eq_false_iff_not]
      exact fun hl => hplus ⟨hsw, hl⟩
  have e2 : (startsWithL ['@'] part && decide (part.length > 1)) = false := by
    rcases hsw : startsWithL ['@'] part with _ | _
    · simp
    · simp only [Bool.true_and, decide_eq_false_iff_not]
      exact fun hl => hat ⟨hsw, hl⟩
  simp [e1, e2, hcolon, hspace, hhttp, hk, hv]

/-- C7, witness for the amended theorem on the token `k:v`. -/
theorem claim_C7_kv_classification_witness :
    (classifyToken
        { completed := false, priority := "", creationDate := "", completionDate := "",
          description := "", descriptionNotes := none, projects := [], contexts := [],
          keyValuePairs := [], raw := "" } "k:v".data).keyValuePairs =
      insertKV []
        (String.mk (splitColon2 "k:v".data).1) (String.mk (splitColon2 "k:v".data).2) :=
  claim_C7_kv_classification _ _ (by decide) (by decide) (by decide) (by decide)
    (by decide) (by decide) (by decide)

/-! ### C1 and C8: parser totality and the completion-date invariant -/

theorem classifyToken_raw (it : Task) (part : List Char) :
    (classifyToken it part).raw = it.raw := by
  unfold classifyToken
  split <;> [rfl; skip]
  split <;> [rfl; skip]
  split <;> [skip; rfl]
  dsimp only
  split <;> rfl

theorem classifyToken_completed (it : Task) (part : List Char) :
    (classifyToken it part).completed = it.completed := by
  unfold classifyToken
  split <;> [rfl; skip]
  split <;> [rfl; skip]
  split <;> [skip; rfl]
  dsimp only
  split <;> rfl

theorem classifyToken_completionDate (it : Task) (part : List Char) :
    (classifyToken it part).completionDate = it.completionDate := by
  unfold classifyToken
  split <;> [rfl; skip]
  split <;> [rfl; skip]
  split <;> [skip; rfl]
  dsimp only
  split <;> rfl

theorem foldl_classifyToken_raw (parts : List (List Char)) (it : Task) :
    (parts.foldl classifyToken it).raw = it.raw := by
  induction parts generalizing it with
  | nil => rfl
  | cons p ps ih => rw [List.foldl_cons, ih, classifyToken_raw]

theorem foldl_classifyToken_completed (parts : List (List Char)) (it : Task) :
    (parts.foldl classifyToken it).completed = it.completed := by
  induction parts generalizing it with
  | nil => rfl
  | cons p ps ih => rw [List.foldl_cons, ih, classifyToken_completed]

theorem foldl_classifyToken_completionDate (parts : List (List Char)) (it : Task) :
    (parts.foldl classifyToken it).completionDate = it.completionDate := by
  induction parts generalizing it with
  | nil => rfl
  | cons p ps ih => rw [List.foldl_cons, ih, classifyToken_completionDate]

/-- The parser never changes the `raw` field: it is the input line. -/
theorem parseTodoLine_raw (line : String) : (parseTodoLine line).raw = line := by
  unfold parseTodoLine
  rw [foldl_classifyToken_raw]

/-- C1: parsing is total (`parseTodoLine` is a total Lean function
producing a `Task` for every string, including empty, whitespace-only
and adversarial inputs), and `parseTodoTxt` filters blank lines before
parsing: every produced `Task` comes from a line that is non-blank
after trimming, and equals `parseTodoLine` of its own `raw` line. -/
theorem claim_C1_parse_total (content : String) (t : Task)
    (ht : t ∈ parseTodoTxt content) :
    trimL t.raw.data ≠ [] ∧ t = parseTodoLine t.raw := by
  unfold parseTodoTxt at ht
  obtain ⟨l, hl, hparse⟩ := List.mem_map.mp ht
  have hblank2 : trimL l.data ≠ [] := by
    have := (List.mem_filter.mp hl).2
    simpa using this
  have hraw : t.raw = l := by rw [← hparse, parseTodoLine_raw]
  constructor
  · rw [hraw]; exact hblank2
  · rw [hraw, hparse]

/-- C1, witness: a concrete file content with blank and non-blank
lines. -/
theorem claim_C1_parse_total_witness :
    trimL (parseTodoLine "a b").raw.data ≠ [] ∧
      parseTodoLine "a b" = parseTodoLine (parseTodoLine "a b").raw :=
  claim_C1_parse_total "a b\n   \n\nx 2025-01-01 done" (parseTodoLine "a b") (by decide)

theorem isDateShape_ne_nil {t : List Char} (h : isDateShape t = true) : t ≠ [] := by
  intro hn
  rw [hn] at h
  exact absurd h (by decide)

/-- C8: the parsed task has a non-empty `completionDate` iff it is
completed (leading token `x`) and the next whitespace token matches
`YYYY-MM-DD`; in particular no task has a completion date while
`completed` is false. -/
theorem claim_C8_completionDate (line : String) :
    (parseTodoLine line).completionDate ≠ "" ↔
      ((parseTodoLine line).completed = true ∧
        ∃ d, (jsSplitWs (trimL line.data)).get? 1 = some d ∧ isDateShape d = true) := by
  have hcd : (parseTodoLine line).completionDate =
      String.mk (if (consumeX (jsSplitWs (trimL line.data))).1 then
          consumeDate (consumeX (jsSplitWs (trimL line.data))).2
        else ([], (consumeX (jsSplitWs (trimL line.data))).2)).1 := by
    unfold parseTodoLine
    rw [foldl_classifyToken_completionDate]
  have hcp : (parseTodoLine line).completed =
      (consumeX (jsSplitWs (trimL line.data))).1 := by
    unfold parseTodoLine
    rw [foldl_classifyToken_completed]
  rw [hcd, hcp]
  rcases hparts : jsSplitWs (trimL line.data) with _ | ⟨p0, rest⟩
  · simp [consumeX]
  · by_cases hx : p0 = ['x']
    · subst hx
      rcases rest with _ | ⟨p1, rest2⟩
      · simp [consumeX, consumeDate]
      · by_cases hd : (p1 ≠ [] && isDateShape p1) = true
        · have hd' : p1 ≠ [] ∧ isDateShape p1 = true := by simpa using hd
          simp [consumeX, consumeDate, hd, hd'.1, hd'.2, String.ext_iff]
        · have hd2 : isDateShape p1 = false := by
            rcases hs : isDateShape p1 with _ | _
            · rfl
            · exact absurd (by simp [isDateShape_ne_nil hs, hs]) hd
          simp [consumeX, consumeDate, hd, hd2, String.ext_iff]
    · simp [consumeX, hx]

/-! ### C5: the Inbox project filter and the archived skip -/

theorem stageProject_of_inbox (s : FilterState) (l : List Task)
    (h1 : s.selectedProject = "Inbox") (h2 : s.archivedFilter = false) :
    stageProject s l =
      l.filter (fun it => it.projects.isEmpty || it.projects.contains "Inbox") := by
  have e : trimL ("Inbox" : String).data ≠ [] := by decide
  simp [stageProject, h1, h2, e]

theorem stageProject_of_archived (s : FilterState) (l : List Task)
    (h2 : s.archivedFilter = true) : stageProject s l = l := by
  simp [stageProject, h2]

/-- C5: with `selectedProject = "Inbox"` and the archived filter unset,
the project stage of `applyFilters` keeps exactly the tasks (among those
passing the earlier stages) whose `projects` list is empty or contains
`"Inbox"`; and whenever the archived filter is set, the project stage is
skipped entirely, regardless of `selectedProject`. -/
theorem claim_C5_inbox_project_filter :
    (∀ (s : FilterState) (today : String) (ts : List Task),
        s.selectedProject = "Inbox" → s.archivedFilter = false →
        applyFilters s today ts =
          sortTasks s (List.filter
            (fun it => it.projects.isEmpty || it.projects.contains "Inbox")
            (stageContext s (stageSearch s (stageTime s today (stageCategorical s ts)))))) ∧
      (∀ (s : FilterState) (today : String) (ts : List Task),
        s.archivedFilter = true →
        applyFilters s today ts =
          sortTasks s
            (stageContext s (stageSearch s (stageTime s today (stageCategorical s ts))))) := by
  constructor
  · intro s today ts h1 h2
    unfold applyFilters
    rw [stageProject_of_inbox s _ h1 h2]
  · intro s today ts h2
    unfold applyFilters
    rw [stageProject_of_archived s _ h2]

def c5State : FilterState :=
  { sortOption := "priority", searchQuery := "", contextFilter := "",
    selectedProject := "Inbox", selectedTimeFilter := "",
    archivedFilter := false, completedFilter := false }

def c5StateArch : FilterState :=
  { sortOption := "priority", searchQuery := "", contextFilter := "",
    selectedProject := "Work", selectedTimeFilter := "",
    archivedFilter := true, completedFilter := false }

def c5Tasks : List Task := parseTodoTxt "milk\nbread +Inbox\nreport +Work"

/-- C5, witness at a concrete state and task list. -/
theorem claim_C5_inbox_project_filter_witness :
    applyFilters c5State "2025-06-01" c5Tasks =
        sortTasks c5State (List.filter
          (fun it => it.projects.isEmpty || it.projects.contains "Inbox")
          (stageContext c5State (stageSearch c5State
            (stageTime c5State "2025-06-01" (stageCategorical c5State c5Tasks))))) ∧
      applyFilters c5StateArch "2025-06-01" c5Tasks =
        sortTasks c5StateArch (stageContext c5StateArch (stageSearch c5StateArch
          (stageTime c5StateArch "2025-06-01" (stageCategorical c5StateArch c5Tasks)))) :=
  ⟨claim_C5_inbox_project_filter.1 c5State "2025-06-01" c5Tasks rfl rfl,
    claim_C5_inbox_project_filter.2 c5StateArch "2025-06-01" c5Tasks rfl⟩

-- Scenario D, concretely: `projects = []` and `projects = ["Inbox"]`
-- are kept, `projects = ["Work"]` is excluded.
example :
    applyFilters c5State "2025-06-01" c5Tasks =
      [parseTodoLine "milk", parseTodoLine "bread +Inbox"] := by
  decide

/-! ### C9: filter idempotence

The comparator induces a total preorder (`taskLe`), so the stable sort
of an already-sorted list is the identity; every filter stage is a pure
predicate, so re-filtering its own output changes nothing. -/

theorem clCmp_swap (a : List Char) : ∀ b, clCmp a b = -clCmp b a := by
  induction a with
  | nil => intro b; cases b <;> simp [clCmp]
  | cons x xs ih =>
    intro b
    cases b with
    | nil => simp [clCmp]
    | cons y ys =>
      simp only [clCmp]
      split_ifs <;> first | omega | rw [ih ys]

theorem clCmp_le_trans : ∀ {a b c : List Char},
    clCmp a b ≤ 0 → clCmp b c ≤ 0 → clCmp a c ≤ 0 := by
  intro a
  induction a with
  | nil =>
    intro b c _ _
    cases c <;> simp [clCmp]
  | cons x xs ih =>
    intro b c h1 h2
    cases b with
    | nil => simp [clCmp] at h1
    | cons y ys =>
      cases c with
      | nil => simp [clCmp] at h2
      | cons z zs =>
        simp only [clCmp] at h1 h2 ⊢
        split_ifs at h1 h2 ⊢ <;> first | omega | exact ih h1 h2

theorem jsStrCmp_swap (a b : String) : jsStrCmp a b = -jsStrCmp b a :=
  clCmp_swap a.data b.data

theorem jsStrCmp_le_trans {a b c : String} (h1 : jsStrCmp a b ≤ 0)
    (h2 : jsStrCmp b c ≤ 0) : jsStrCmp a c ≤ 0 :=
  clCmp_le_trans h1 h2

theorem taskCmpKey_swap (s : FilterState) (a b : Task) :
    taskCmpKey s b a = -taskCmpKey s a b := by
  unfold taskCmpKey
  split_ifs <;> first | omega | apply jsStrCmp_swap

theorem taskCmpKey_le_trans (s : FilterState) (a b c : Task)
    (h1 : taskCmpKey s a b ≤ 0) (h2 : taskCmpKey s b c ≤ 0) :
    taskCmpKey s a c ≤ 0 := by
  unfold taskCmpKey at h1 h2 ⊢
  split_ifs at h1 h2 ⊢ <;>
    first
      | omega
      | exact jsStrCmp_le_trans h1 h2
      | exact jsStrCmp_le_trans h2 h1

theorem completedRank_cases (it : Task) :
    completedRank it = 0 ∨ completedRank it = 1 := by
  unfold completedRank
  split_ifs <;> simp

theorem taskLe_total (s : FilterState) (a b : Task) :
    taskLe s a b ∨ taskLe s b a := by
  unfold taskLe taskCmp
  have hk := taskCmpKey_swap s a b
  by_cases hab : completedRank a = completedRank b
  · rw [if_neg (by omega), if_neg (by omega)]
    omega
  · rw [if_pos (by omega), if_pos (by omega)]
    omega

theorem taskLe_trans (s : FilterState) (a b c : Task) :
    taskLe s a b → taskLe s b c → taskLe s a c := by
  unfold taskLe taskCmp
  intro h1 h2
  have ha := completedRank_cases a
  have hb := completedRank_cases b
  have hc := completedRank_cases c
  by_cases hab : completedRank a = completedRank b
  · by_cases hbc : completedRank b = completedRank c
    · rw [if_neg (by omega)] at h1
      rw [if_neg (by omega)] at h2
      rw [if_neg (by omega)]
      exact taskCmpKey_le_trans s a b c h1 h2
    · rw [if_pos (by omega)] at h2
      rw [if_pos (by omega)]
      omega
  · rw [if_pos (by omega)] at h1
    by_cases hbc : completedRank b = completedRank c
    · rw [if_pos (by omega)]
      omega
    · rw [if_pos (by omega)] at h2
      by_cases hac : completedRank a = completedRank c
      · omega
      · rw [if_pos (by omega)]
        omega

instance (s : FilterState) : IsTotal Task (taskLe s) := ⟨taskLe_total s⟩

instance (s : FilterState) : IsTrans Task (taskLe s) :=
  ⟨fun a b c => taskLe_trans s a b c⟩

theorem mem_of_stageCategorical {s : FilterState} {l : List Task} {x : Task}
    (h : x ∈ stageCategorical s l) : x ∈ l := by
  unfold stageCategorical at h
  split_ifs at h <;> exact List.mem_of_mem_filter h

theorem mem_of_stageTime {s : FilterState} {today : String} {l : List Task} {x : Task}
    (h : x ∈ stageTime s today l) : x ∈ l := by
  unfold stageTime at h
  split_ifs at h <;> first | exact List.mem_of_mem_filter h | exact h

theorem mem_of_stageSearch {s : FilterState} {l : List Task} {x : Task}
    (h : x ∈ stageSearch s l) : x ∈ l := by
  unfold stageSearch at h
  split_ifs at h <;> first | exact List.mem_of_mem_filter h | exact h

theorem mem_of_stageContext {s : FilterState} {l : List Task} {x : Task}
    (h : x ∈ stageContext s l) : x ∈ l := by
  unfold stageContext at h
  split_ifs at h <;> first | exact List.mem_of_mem_filter h | exact h

theorem mem_of_stageProject {s : FilterState} {l : List Task} {x : Task}
    (h : x ∈ stageProject s l) : x ∈ l := by
  unfold stageProject at h
  split_ifs at h <;> first | exact List.mem_of_mem_filter h | exact h

theorem stageCategorical_eq_self (s : FilterState) (m l : List Task)
    (h : ∀ x ∈ m, x ∈ stageCategorical s l) : stageCategorical s m = m := by
  unfold stageCategorical
  split_ifs with h1 h2
  · refine List.filter_eq_self.mpr (fun x hx => ?_)
    have hx2 := h x hx
    unfold stageCategorical at hx2
    rw [if_pos h1] at hx2
    exact (List.mem_filter.mp hx2).2
  · refine List.filter_eq_self.mpr (fun x hx => ?_)
    have hx2 := h x hx
    unfold stageCategorical at hx2
    rw [if_neg h1, if_pos h2] at hx2
    exact (List.mem_filter.mp hx2).2
  · refine List.filter_eq_self.mpr (fun x hx => ?_)
    have hx2 := h x hx
    unfold stageCategorical at hx2
    rw [if_neg h1, if_neg h2] at hx2
    exact (List.mem_filter.mp hx2).2

theorem stageTime_eq_self (s : FilterState) (today : String) (m l : List Task)
    (h : ∀ x ∈ m, x ∈ stageTime s today l) : stageTime s today m = m := by
  unfold stageTime
  split_ifs with h1
  · refine List.filter_eq_self.mpr (fun x hx => ?_)
    have hx2 := h x hx
    unfold stageTime at hx2
    rw [if_pos h1] at hx2
    exact (List.mem_filter.mp hx2).2
  · rfl

theorem stageSearch_eq_self (s : FilterState) (m l : List Task)
    (h : ∀ x ∈ m, x ∈ stageSearch s l) : stageSearch s m = m := by
  unfold stageSearch
  split_ifs with h1
  · refine List.filter_eq_self.mpr (fun x hx => ?_)
    have hx2 := h x hx
    unfold stageSearch at hx2
    rw [if_pos h1] at hx2
    exact (List.mem_filter.mp hx2).2
  · rfl

theorem stageContext_eq_self (s : FilterState) (m l : List Task)
    (h : ∀ x ∈ m, x ∈ stageContext s l) : stageContext s m = m := by
  unfold stageContext
  split_ifs with h1 h2
  · refine List.filter_eq_self.mpr (fun x hx => ?_)
    have hx2 := h x hx
    unfold stageContext at hx2
    rw [if_pos h1, if_pos h2] at hx2
    exact (List.mem_filter.mp hx2).2
  · refine List.filter_eq_self.mpr (fun x hx => ?_)
    have hx2 := h x hx
    unfold stageContext at hx2
    rw [if_pos h1, if_neg h2] at hx2
    exact (List.mem_filter.mp hx2).2
  · rfl

theorem stageProject_eq_self (s : FilterState) (m l : List Task)
    (h : ∀ x ∈ m, x ∈ stageProject s l) : stageProject s m = m := by
  unfold stageProject
  split_ifs with h1 h2
  · refine List.filter_eq_self.mpr (fun x hx => ?_)
    have hx2 := h x hx
    unfold stageProject at hx2
    rw [if_pos h1, if_pos h2] at hx2
    exact (List.mem_filter.mp hx2).2
  · refine List.filter_eq_self.mpr (fun x hx => ?_)
    have hx2 := h x hx
    unfold stageProject at hx2
    rw [if_pos h1, if_neg h2] at hx2
    exact (List.mem_filter.mp hx2).2
  · rfl

/-- C9: `applyFilters` is idempotent — every filter stage is a pure
predicate (so re-filtering its own output is the identity) and
re-sorting an already-sorted list with the same comparator changes
nothing. -/
theorem claim_C9_applyFilters_idempotent (s : FilterState) (today : String)
    (ts : List Task) :
    applyFilters s today (applyFilters s today ts) = applyFilters s today ts := by
  unfold applyFilters sortTasks
  set l1 := stageCategorical s ts with hl1
  set l2 := stageTime s today l1 with hl2
  set l3 := stageSearch s l2 with hl3
  set l4 := stageContext s l3 with hl4
  set l5 := stageProject s l4 with hl5
  set srt := List.insertionSort (taskLe s) l5 with hsrt
  have hmem5 : ∀ x ∈ srt, x ∈ l5 := fun x hx => (List.mem_insertionSort _).mp hx
  have hmem4 : ∀ x ∈ srt, x ∈ l4 := fun x hx => mem_of_stageProject (hmem5 x hx)
  have hmem3 : ∀ x ∈ srt, x ∈ l3 := fun x hx => mem_of_stageContext (hmem4 x hx)
  have hmem2 : ∀ x ∈ srt, x ∈ l2 := fun x hx => mem_of_stageSearch (hmem3 x hx)
  have hmem1 : ∀ x ∈ srt, x ∈ l1 := fun x hx => mem_of_stageTime (hmem2 x hx)
  have h1 : stageCategorical s srt = srt :=
    stageCategorical_eq_self s srt ts (fun x hx => hmem1 x hx)
  have h2 : stageTime s today srt = srt :=
    stageTime_eq_self s today srt l1 (fun x hx => hmem2 x hx)
  have h3 : stageSearch s srt = srt :=
    stageSearch_eq_self s srt l2 (fun x hx => hmem3 x hx)
  have h4 : stageContext s srt = srt :=
    stageContext_eq_self s srt l3 (fun x hx => hmem4 x hx)
  have h5 : stageProject s srt = srt :=
    stageProject_eq_self s srt l4 (fun x hx => hmem5 x hx)
  rw [h1, h2, h3, h4, h5]
  exact List.Sorted.insertionSort_eq (List.sorted_insertionSort (taskLe s) l5)

/-! ### C10: Complete then Uncomplete round-trips a task line

Hypothesis vocabulary: a line is presented as its whitespace-delimited
tokens; `wsTok` says a token is nonempty and whitespace-free, `cleanTok`
additionally excludes line-terminator-class characters and any
occurrence of the substring `pri:`. -/

/-- Does the substring `pri:` occur anywhere in `t`? -/
def hasPriSub : List Char → Bool
  | [] => false
  | c :: cs => startsWithL ['p', 'r', 'i', ':'] (c :: cs) || hasPriSub cs

/-- A nonempty whitespace-free token. -/
def wsTok (t : List Char) : Bool :=
  t ≠ [] && t.all (fun c => !chIsWs c)

/-- A `wsTok` with no line-terminator-class characters and no `pri:`
substring. -/
def cleanTok (t : List Char) : Bool :=
  wsTok t && t.all (fun c => !chIsNl c) && !hasPriSub t

theorem wsTok_ne_nil {t : List Char} (h : wsTok t = true) : t ≠ [] := by
  unfold wsTok at h
  exact fun hn => by simp [hn] at h

theorem wsTok_nonws {t : List Char} (h : wsTok t = true) :
    ∀ c ∈ t, chIsWs c = false := by
  unfold wsTok at h
  intro c hc
  have := (Bool.and_elim_right h)
  rw [List.all_eq_true] at this
  simpa using this c hc

theorem cleanTok_wsTok {t : List Char} (h : cleanTok t = true) : wsTok t = true := by
  unfold cleanTok at h
  exact Bool.and_elim_left (Bool.and_elim_left h)

theorem cleanTok_nonNl {t : List Char} (h : cleanTok t = true) :
    ∀ c ∈ t, chIsNl c = false := by
  unfold cleanTok at h
  intro c hc
  have := Bool.and_elim_right (Bool.and_elim_left h)
  rw [List.all_eq_true] at this
  simpa using this c hc

theorem cleanTok_noPri {t : List Char} (h : cleanTok t = true) :
    hasPriSub t = false := by
  unfold cleanTok at h
  have := Bool.and_elim_right h
  simpa using this

theorem cleanTok_tail {c : Char} {t : List Char} (h : cleanTok (c :: t) = true)
    (hne : t ≠ []) : cleanTok t = true := by
  unfold cleanTok wsTok at h ⊢
  simp only [List.all_cons, Bool.and_eq_true, Bool.not_eq_true'] at h
  obtain ⟨⟨⟨_, _, hall⟩, _, hnl⟩, hpri⟩ := h
  have hpri2 : hasPriSub t = false := by
    have : hasPriSub (c :: t) = false := by simpa using hpri
    unfold hasPriSub at this
    exact (Bool.or_eq_false_iff.mp this).2
  simp [hne, hall, hnl, hpri2]

/-- `joinSp` over a cons with nonempty tail. -/
theorem joinSp_cons {t : List Char} {ts : List (List Char)} (h : ts ≠ []) :
    joinSp (t :: ts) = t ++ ' ' :: joinSp ts := by
  cases ts with
  | nil => exact absurd rfl h
  | cons u us => rfl

theorem joinSp_append {ts us : List (List Char)} (hts : ts ≠ []) (hus : us ≠ []) :
    joinSp (ts ++ us) = joinSp ts ++ ' ' :: joinSp us := by
  induction ts with
  | nil => exact absurd rfl hts
  | cons t ts ih =>
    cases ts with
    | nil =>
      rw [List.singleton_append, joinSp_cons hus]
      rfl
    | cons t2 ts2 =>
      rw [List.cons_append, joinSp_cons (by simp), joinSp_cons (by simp),
        ih (by simp), List.append_assoc]
      rfl

theorem joinSp_head_nonws {ts : List (List Char)} (hne : ts ≠ [])
    (h : ∀ t ∈ ts, wsTok t = true) :
    ∃ c cs, joinSp ts = c :: cs ∧ chIsWs c = false := by
  cases ts with
  | nil => exact absurd rfl hne
  | cons t ts =>
    have ht := h t (by simp)
    obtain ⟨c, t', hct⟩ : ∃ c t', t = c :: t' := by
      cases t with
      | nil => exact absurd rfl (wsTok_ne_nil ht)
      | cons c t' => exact ⟨c, t', rfl⟩
    have hcw : chIsWs c = false := wsTok_nonws ht c (by rw [hct]; simp)
    cases ts with
    | nil => exact ⟨c, t', by simpa [joinSp] using ⟨hct, hcw⟩⟩
    | cons t2 ts2 =>
      refine ⟨c, t' ++ ' ' :: joinSp (t2 :: ts2), ?_, hcw⟩
      rw [joinSp_cons (by simp), hct]
      rfl

theorem joinSp_ne_nil {ts : List (List Char)} (hne : ts ≠ [])
    (h : ∀ t ∈ ts, wsTok t = true) : joinSp ts ≠ [] := by
  obtain ⟨c, cs, hj, _⟩ := joinSp_head_nonws hne h
  rw [hj]
  simp

theorem joinSp_rev_head_nonws {ts : List (List Char)} (hne : ts ≠ [])
    (h : ∀ t ∈ ts, wsTok t = true) :
    ∃ c cs, (joinSp ts).reverse = c :: cs ∧ chIsWs c = false := by
  induction ts with
  | nil => exact absurd rfl hne
  | cons t ts ih =>
    cases ts with
    | nil =>
      have ht := h t (by simp)
      obtain ⟨c, cs, hrev⟩ : ∃ c cs, t.reverse = c :: cs := by
        cases hr : t.reverse with
        | nil => exact absurd (by simpa using hr) (wsTok_ne_nil ht)
        | cons c cs => exact ⟨c, cs, rfl⟩
      refine ⟨c, cs, by simpa [joinSp] using hrev, ?_⟩
      exact wsTok_nonws ht c (by
        have : c ∈ t.reverse := by rw [hrev]; simp
        simpa using this)
    | cons t2 ts2 =>
      obtain ⟨c, cs, hj, hcw⟩ := ih (by simp) (fun u hu => h u (by simp [hu]))
      refine ⟨c, cs ++ ' ' :: t.reverse, ?_, hcw⟩
      rw [joinSp_cons (by simp), List.reverse_append, List.reverse_cons, hj]
      simp

theorem trimL_joinSp {ts : List (List Char)} (hne : ts ≠ [])
    (h : ∀ t ∈ ts, wsTok t = true) : trimL (joinSp ts) = joinSp ts := by
  obtain ⟨c, cs, hj, hcw⟩ := joinSp_head_nonws hne h
  obtain ⟨d, ds, hr, hdw⟩ := joinSp_rev_head_nonws hne h
  unfold trimL
  rw [hj, List.dropWhile_cons, hcw]
  simp only [Bool.false_eq_true, if_false]
  rw [← hj, hr, List.dropWhile_cons, hdw]
  simp only [Bool.false_eq_true, if_false]
  rw [← hr, List.reverse_reverse]

theorem splitWsAux_cons_eq (c : Char) (cs acc : List Char) :
    splitWsAux (c :: cs) acc =
      if chIsWs c = true then
        if acc = [] then splitWsAux cs [] else acc.reverse :: splitWsAux cs []
      else splitWsAux cs (c :: acc) := rfl

theorem splitWsAux_cons_nonws {c : Char} {cs acc : List Char} (hc : chIsWs c = false) :
    splitWsAux (c :: cs) acc = splitWsAux cs (c :: acc) := by
  rw [splitWsAux_cons_eq, hc]
  simp

theorem splitWsAux_cons_ws {c : Char} {cs acc : List Char} (hc : chIsWs c = true)
    (hacc : acc ≠ []) :
    splitWsAux (c :: cs) acc = acc.reverse :: splitWsAux cs [] := by
  rw [splitWsAux_cons_eq, hc]
  simp [hacc]

theorem splitWsAux_token (t : List Char) (ht : ∀ c ∈ t, chIsWs c = false) :
    ∀ (cs acc : List Char), splitWsAux (t ++ cs) acc = splitWsAux cs (t.reverse ++ acc) := by
  induction t with
  | nil => intro cs acc; simp
  | cons c t ih =>
    intro cs acc
    have hc : chIsWs c = false := ht c (by simp)
    rw [List.cons_append, splitWsAux_cons_nonws hc,
      ih (fun d hd => ht d (by simp [hd])) cs (c :: acc), List.reverse_cons,
      List.append_assoc]
    rfl

theorem splitWsAux_join {ts : List (List Char)} (hne : ts ≠ [])
    (h : ∀ t ∈ ts, wsTok t = true) : splitWsAux (joinSp ts) [] = ts := by
  induction ts with
  | nil => exact absurd rfl hne
  | cons t ts ih =>
    have ht := h t (by simp)
    cases ts with
    | nil =>
      show splitWsAux (joinSp [t]) [] = [t]
      have h2 : joinSp [t] = t ++ [] := by simp [joinSp]
      rw [h2, splitWsAux_token t (wsTok_nonws ht) [] []]
      unfold splitWsAux
      rw [List.append_nil, if_neg (by simpa using wsTok_ne_nil ht)]
      simp
    | cons t2 ts2 =>
      rw [joinSp_cons (by simp), splitWsAux_token t (wsTok_nonws ht) _ [],
        List.append_nil,
        splitWsAux_cons_ws (by decide) (by simpa using wsTok_ne_nil ht),
        List.reverse_reverse, ih (by simp) (fun u hu => h u (by simp [hu]))]

theorem jsSplitWs_join {ts : List (List Char)} (hne : ts ≠ [])
    (h : ∀ t ∈ ts, wsTok t = true) : jsSplitWs (joinSp ts) = ts := by
  unfold jsSplitWs
  rw [if_neg (joinSp_ne_nil hne h)]
  exact splitWsAux_join hne h

theorem priAt_some_startsWith {s : List Char} {x : Char} {r : List Char}
    (h : priAt s = some (x, r)) : startsWithL ['p', 'r', 'i', ':'] s = true := by
  unfold priAt at h
  split at h
  · rename_i c1 c2 c3 c4 x' rest
    split at h
    · rename_i hcond
      simp only [Bool.and_eq_true, decide_eq_true_eq] at hcond
      obtain ⟨⟨⟨⟨⟨h1, h2⟩, h3⟩, h4⟩, _⟩, _⟩ := hcond
      simp [startsWithL, h1, h2, h3, h4]
    · exact absurd h (by simp)
  · exact absurd h (by simp)

theorem hasPriSub_of_startsWith {t : List Char}
    (h : startsWithL ['p', 'r', 'i', ':'] t = true) : hasPriSub t = true := by
  cases t with
  | nil => simp [startsWithL] at h
  | cons c cs => simp [hasPriSub, h]

theorem hasPriSub_cons_false {c : Char} {t : List Char}
    (h : hasPriSub (c :: t) = false) : hasPriSub t = false := by
  unfold hasPriSub at h
  exact (Bool.or_eq_false_iff.mp h).2

theorem startsWith_pri_straddle {u s : List Char} (hu : u ≠ [])
    (hs : s = [] ∨ ∃ c cs, s = c :: cs ∧ chIsWs c = true)
    (h : startsWithL ['p', 'r', 'i', ':'] (u ++ s) = true) :
    startsWithL ['p', 'r', 'i', ':'] u = true := by
  rcases u with _ | ⟨a, _ | ⟨b, _ | ⟨c, _ | ⟨d, u'⟩⟩⟩⟩
  · exact absurd rfl hu
  · simp only [List.cons_append, List.nil_append, startsWithL, Bool.and_eq_true,
      decide_eq_true_eq] at h
    obtain ⟨ha, hrest⟩ := h
    rcases hs with rfl | ⟨e, es, rfl, hws⟩
    · simp [startsWithL] at hrest
    · simp only [startsWithL, Bool.and_eq_true, decide_eq_true_eq] at hrest
      rw [← hrest.1] at hws
      exact absurd hws (by decide)
  · simp only [List.cons_append, List.nil_append, startsWithL, Bool.and_eq_true,
      decide_eq_true_eq] at h
    obtain ⟨ha, hb, hrest⟩ := h
    rcases hs with rfl | ⟨e, es, rfl, hws⟩
    · simp [startsWithL] at hrest
    · simp only [startsWithL, Bool.and_eq_true, decide_eq_true_eq] at hrest
      rw [← hrest.1] at hws
      exact absurd hws (by decide)
  · simp only [List.cons_append, List.nil_append, startsWithL, Bool.and_eq_true,
      decide_eq_true_eq] at h
    obtain ⟨ha, hb, hc, hrest⟩ := h
    rcases hs with rfl | ⟨e, es, rfl, hws⟩
    · simp [startsWithL] at hrest
    · simp only [startsWithL, Bool.and_eq_true, decide_eq_true_eq] at hrest
      rw [← hrest.1] at hws
      exact absurd hws (by decide)
  · simp only [List.cons_append, startsWithL, Bool.and_eq_true, decide_eq_true_eq] at h
    obtain ⟨ha, hb, hc, hd, _⟩ := h
    simp only [startsWithL, Bool.and_eq_true, decide_eq_true_eq]
    exact ⟨ha, hb, hc, hd, trivial⟩

theorem tryPriAt_none_token {u s : List Char} (hu : u ≠ [])
    (huw : ∀ c ∈ u, chIsWs c = false) (hupri : hasPriSub u = false)
    (hs : s = [] ∨ ∃ c cs, s = c :: cs ∧ chIsWs c = true) :
    tryPriAt (u ++ s) = none := by
  obtain ⟨c, u', rfl⟩ : ∃ c u', u = c :: u' := by
    cases u with
    | nil => exact absurd rfl hu
    | cons c u' => exact ⟨c, u', rfl⟩
  unfold tryPriAt
  rw [List.cons_append, List.dropWhile_cons, huw c (by simp)]
  simp only [Bool.false_eq_true, if_false]
  cases hp : priAt (c :: (u' ++ s)) with
  | none => rfl
  | some xr =>
    exfalso
    obtain ⟨x, r⟩ := xr
    have hsw := priAt_some_startsWith hp
    rw [show c :: (u' ++ s) = (c :: u') ++ s from rfl] at hsw
    have := hasPriSub_of_startsWith (startsWith_pri_straddle hu hs hsw)
    rw [this] at hupri
    exact absurd hupri (by simp)

theorem findPriGo_cons_eq (racc : List Char) (c : Char) (cs : List Char) :
    findPriGo racc (c :: cs) =
      match tryPriAt (c :: cs) with
      | some (x, rest) => some (racc.reverse, x, rest)
      | none => findPriGo (c :: racc) cs := rfl

theorem findPriGo_cons_none {racc : List Char} {c : Char} {cs : List Char}
    (h : tryPriAt (c :: cs) = none) :
    findPriGo racc (c :: cs) = findPriGo (c :: racc) cs := by
  rw [findPriGo_cons_eq, h]

theorem findPriGo_cons_some {racc : List Char} {c : Char} {cs rest : List Char} {x : Char}
    (h : tryPriAt (c :: cs) = some (x, rest)) :
    findPriGo racc (c :: cs) = some (racc.reverse, x, rest) := by
  rw [findPriGo_cons_eq, h]

theorem findPriGo_token {t : List Char} (ht : cleanTok t = true) {s : List Char}
    (hs : s = [] ∨ ∃ c cs, s = c :: cs ∧ chIsWs c = true) :
    ∀ racc, findPriGo racc (t ++ s) = findPriGo (t.reverse ++ racc) s := by
  induction t with
  | nil => exact absurd ht (by decide)
  | cons c t' ih =>
    intro racc
    have hnone : tryPriAt ((c :: t') ++ s) = none :=
      tryPriAt_none_token (by simp) (wsTok_nonws (cleanTok_wsTok ht))
        (cleanTok_noPri ht) hs
    rw [List.cons_append] at hnone ⊢
    rw [findPriGo_cons_none hnone]
    by_cases ht' : t' = []
    · subst ht'
      simp
    · rw [ih (cleanTok_tail ht ht') (c :: racc), List.reverse_cons, List.append_assoc]
      rfl

theorem startsWith_pri_join_head {t0 : List Char} {rest : List (List Char)}
    (h0 : cleanTok t0 = true) :
    startsWithL ['p', 'r', 'i', ':'] (joinSp (t0 :: rest)) = false := by
  cases hsw : startsWithL ['p', 'r', 'i', ':'] (joinSp (t0 :: rest)) with
  | false => rfl
  | true =>
    exfalso
    cases rest with
    | nil =>
      have : joinSp [t0] = t0 := rfl
      rw [this] at hsw
      have := hasPriSub_of_startsWith hsw
      rw [cleanTok_noPri h0] at this
      exact absurd this (by simp)
    | cons r rs =>
      rw [joinSp_cons (by simp)] at hsw
      have := hasPriSub_of_startsWith
        (startsWith_pri_straddle (wsTok_ne_nil (cleanTok_wsTok h0))
          (Or.inr ⟨' ', joinSp (r :: rs), rfl, by decide⟩) hsw)
      rw [cleanTok_noPri h0] at this
      exact absurd this (by simp)

theorem tryPriAt_space_cons {t0 : List Char} {rest : List (List Char)}
    (h0 : cleanTok t0 = true) :
    tryPriAt (' ' :: joinSp (t0 :: rest)) = none := by
  obtain ⟨c, t0', hct⟩ : ∃ c t0', t0 = c :: t0' := by
    cases t0 with
    | nil => exact absurd rfl (wsTok_ne_nil (cleanTok_wsTok h0))
    | cons c t0' => exact ⟨c, t0', rfl⟩
  have hcw : chIsWs c = false :=
    wsTok_nonws (cleanTok_wsTok h0) c (by rw [hct]; simp)
  obtain ⟨v, hv⟩ : ∃ v, joinSp (t0 :: rest) = c :: v := by
    cases rest with
    | nil => exact ⟨t0', by simp [joinSp, hct]⟩
    | cons r rs =>
      exact ⟨t0' ++ ' ' :: joinSp (r :: rs), by rw [joinSp_cons (by simp), hct]; rfl⟩
  unfold tryPriAt
  rw [hv, List.dropWhile_cons, if_pos (by decide), List.dropWhile_cons, hcw]
  simp only [Bool.false_eq_true, if_false]
  cases hp : priAt (c :: v) with
  | none => rfl
  | some xr =>
    exfalso
    obtain ⟨x, r⟩ := xr
    have hsw := priAt_some_startsWith hp
    rw [← hv, startsWith_pri_join_head h0] at hsw
    exact absurd hsw (by simp)

theorem findPriGo_none_join {ts : List (List Char)}
    (h : ∀ t ∈ ts, cleanTok t = true) : ∀ racc, findPriGo racc (joinSp ts) = none := by
  induction ts with
  | nil => intro racc; rfl
  | cons t ts ih =>
    intro racc
    have ht := h t (by simp)
    cases ts with
    | nil =>
      have h2 : joinSp [t] = t ++ [] := by simp [joinSp]
      rw [h2, findPriGo_token ht (Or.inl rfl) racc]
      rfl
    | cons t2 ts2 =>
      rw [joinSp_cons (by simp),
        findPriGo_token ht (Or.inr ⟨' ', joinSp (t2 :: ts2), rfl, by decide⟩) racc,
        findPriGo_cons_none (tryPriAt_space_cons (h t2 (by simp)))]
      exact ih (fun u hu => h u (by simp [hu])) _

theorem tryPriAt_hit {x : Char} {tail : List Char} (hx : chIsUpper x = true)
    (hb : tail = [] ∨ ∃ cs, tail = ' ' :: cs) :
    tryPriAt (' ' :: 'p' :: 'r' :: 'i' :: ':' :: x :: tail) = some (x, tail) := by
  unfold tryPriAt
  rw [List.dropWhile_cons, if_pos (by decide), List.dropWhile_cons,
    if_neg (by decide)]
  show priAt ('p' :: 'r' :: 'i' :: ':' :: x :: tail) = some (x, tail)
  unfold priAt
  rcases hb with rfl | ⟨cs, rfl⟩
  · simp [hx]
  · simp [hx]
    decide

/-- The pri-token as characters. -/
def priTok (x : Char) : List Char := ['p', 'r', 'i', ':', x]

theorem cleanTok_append_arg {ts : List (List Char)} {u : List Char}
    (h : ∀ t ∈ ts, cleanTok t = true) (hu : u ∈ ts) : cleanTok u = true := h u hu

theorem findPriGo_locate {x : Char} (hx : chIsUpper x = true) :
    ∀ (A : List (List Char)) (R : List (List Char)) (racc : List Char),
      A ≠ [] → (∀ t ∈ A, cleanTok t = true) →
      findPriGo racc (joinSp (A ++ priTok x :: R)) =
        some (racc.reverse ++ joinSp A, x,
          match R with | [] => [] | _ :: _ => ' ' :: joinSp R) := by
  intro A
  induction A with
  | nil => intro R racc hA _; exact absurd rfl hA
  | cons t A' ih =>
    intro R racc _ hclean
    have ht := hclean t (by simp)
    rw [show (t :: A') ++ priTok x :: R = t :: (A' ++ priTok x :: R) from rfl,
      @joinSp_cons t (A' ++ priTok x :: R) (by simp),
      findPriGo_token ht (Or.inr ⟨' ', joinSp (A' ++ priTok x :: R), rfl, by decide⟩) racc]
    cases A' with
    | nil =>
      cases R with
      | nil =>
        show findPriGo (t.reverse ++ racc) (' ' :: 'p' :: 'r' :: 'i' :: ':' :: x :: []) = _
        rw [findPriGo_cons_some (tryPriAt_hit hx (Or.inl rfl))]
        simp [joinSp]
      | cons r R' =>
        have hj : joinSp ([] ++ priTok x :: r :: R') =
            'p' :: 'r' :: 'i' :: ':' :: x :: ' ' :: joinSp (r :: R') := by
          rw [List.nil_append, joinSp_cons (by simp)]
          rfl
        rw [hj, findPriGo_cons_some (tryPriAt_hit hx (Or.inr ⟨joinSp (r :: R'), rfl⟩))]
        simp [joinSp]
    | cons t2 A'' =>
      rw [show (t2 :: A'') ++ priTok x :: R = t2 :: (A'' ++ priTok x :: R) from rfl,
        findPriGo_cons_none (tryPriAt_space_cons (hclean t2 (by simp))),
        show joinSp (t2 :: (A'' ++ priTok x :: R)) = joinSp ((t2 :: A'') ++ priTok x :: R)
          from rfl,
        ih R (' ' :: (t.reverse ++ racc)) (by simp) (fun u hu => hclean u (by simp [hu])),
        @joinSp_cons t (t2 :: A'') (by simp)]
      simp [List.append_assoc]

theorem startsWithL_append_left {pat t s : List Char}
    (h : startsWithL pat t = true) : startsWithL pat (t ++ s) = true := by
  induction pat generalizing t with
  | nil => rfl
  | cons p ps ih =>
    cases t with
    | nil => simp [startsWithL] at h
    | cons c t' =>
      simp only [startsWithL, Bool.and_eq_true] at h ⊢
      exact ⟨h.1, ih h.2⟩

theorem notesAt_cons_nonws {c : Char} {cs : List Char} (hc : chIsWs c = false) :
    notesAt (c :: cs) = false := by
  unfold notesAt
  rw [List.takeWhile_cons, hc]
  simp

theorem findNotesGo_cons_eq (racc : List Char) (c : Char) (cs : List Char) :
    findNotesGo racc (c :: cs) =
      if notesAt (c :: cs) then some (racc.reverse, c :: cs)
      else findNotesGo (c :: racc) cs := rfl

theorem findNotesGo_token {t : List Char} (ht : wsTok t = true) :
    ∀ (s racc : List Char), findNotesGo racc (t ++ s) = findNotesGo (t.reverse ++ racc) s := by
  induction t with
  | nil => exact absurd ht (by decide)
  | cons c t' ih =>
    intro s racc
    have hc : chIsWs c = false := wsTok_nonws ht c (by simp)
    rw [List.cons_append, findNotesGo_cons_eq,
      if_neg (by rw [notesAt_cons_nonws hc]; simp)]
    by_cases ht' : t' = []
    · subst ht'
      simp
    · have ht'2 : wsTok t' = true := by
        unfold wsTok at ht ⊢
        simp only [List.all_cons, Bool.and_eq_true] at ht
        simp [ht', ht.2.2]
      rw [ih ht'2 s (c :: racc), List.reverse_cons, List.append_assoc]
      rfl

theorem joinSp_nonNl {ts : List (List Char)} (h : ∀ t ∈ ts, cleanTok t = true) :
    ∀ c ∈ joinSp ts, chIsNl c = false := by
  induction ts with
  | nil => intro c hc; simp [joinSp] at hc
  | cons t ts ih =>
    intro c hc
    cases ts with
    | nil =>
      have : joinSp [t] = t := rfl
      rw [this] at hc
      exact cleanTok_nonNl (h t (by simp)) c hc
    | cons t2 ts2 =>
      rw [joinSp_cons (by simp)] at hc
      rcases List.mem_append.mp hc with hin | hin
      · exact cleanTok_nonNl (h t (by simp)) c hin
      · rcases List.mem_cons.mp hin with rfl | hin2
        · decide
        · exact ih (fun u hu => h u (by simp [hu])) c hin2

theorem startsWith_pipes_straddle {t0 w : List Char}
    (h : startsWithL ['|', '|'] (t0 ++ ' ' :: w) = true) (hne : t0 ≠ []) :
    startsWithL ['|', '|'] t0 = true := by
  rcases t0 with _ | ⟨a, _ | ⟨b, t0'⟩⟩
  · exact absurd rfl hne
  · simp only [List.cons_append, List.nil_append, startsWithL, Bool.and_eq_true,
      decide_eq_true_eq] at h
    obtain ⟨_, h2, _⟩ := h
    exact absurd h2 (by decide)
  · simp only [List.cons_append, startsWithL, Bool.and_eq_true, decide_eq_true_eq] at h
    simp only [startsWithL, Bool.and_eq_true, decide_eq_true_eq]
    exact ⟨h.1, h.2.1, trivial⟩

theorem startsWith_pipes_join {t0 : List Char} {S : List (List Char)}
    (h0 : wsTok t0 = true) (hn : startsWithL ['|', '|'] t0 = false) :
    startsWithL ['|', '|'] (joinSp (t0 :: S)) = false := by
  cases hsw : startsWithL ['|', '|'] (joinSp (t0 :: S)) with
  | false => rfl
  | true =>
    exfalso
    cases S with
    | nil =>
      have : joinSp [t0] = t0 := rfl
      rw [this, hn] at hsw
      exact absurd hsw (by simp)
    | cons r rs =>
      rw [joinSp_cons (by simp)] at hsw
      rw [startsWith_pipes_straddle hsw (wsTok_ne_nil h0)] at hn
      exact absurd hn (by simp)

theorem notesAt_space_eval {t0 : List Char} (S : List (List Char))
    (h0 : wsTok t0 = true) :
    notesAt (' ' :: joinSp (t0 :: S)) =
      (startsWithL ['|', '|'] (joinSp (t0 :: S)) &&
        ((joinSp (t0 :: S)).drop 2).all (fun c => !chIsNl c)) := by
  obtain ⟨c, t0', hct⟩ : ∃ c t0', t0 = c :: t0' := by
    cases t0 with
    | nil => exact absurd rfl (wsTok_ne_nil h0)
    | cons c t0' => exact ⟨c, t0', rfl⟩
  have hcw : chIsWs c = false := wsTok_nonws h0 c (by rw [hct]; simp)
  obtain ⟨v, hv⟩ : ∃ v, joinSp (t0 :: S) = c :: v := by
    cases S with
    | nil => exact ⟨t0', by simp [joinSp, hct]⟩
    | cons r rs =>
      exact ⟨t0' ++ ' ' :: joinSp (r :: rs), by rw [joinSp_cons (by simp), hct]; rfl⟩
  unfold notesAt
  rw [hv]
  have hsp : chIsWs ' ' = true := by decide
  simp [List.takeWhile_cons, List.dropWhile_cons, hcw, hsp]

theorem notesAt_space_cons_neg {t0 : List Char} {S : List (List Char)}
    (h0 : wsTok t0 = true) (hn : startsWithL ['|', '|'] t0 = false) :
    notesAt (' ' :: joinSp (t0 :: S)) = false := by
  rw [notesAt_space_eval S h0, startsWith_pipes_join h0 hn]
  simp

theorem notesAt_space_cons_pos {n : List Char} {S : List (List Char)}
    (h0 : wsTok n = true) (hn : startsWithL ['|', '|'] n = true)
    (hnl : ∀ c ∈ joinSp (n :: S), chIsNl c = false) :
    notesAt (' ' :: joinSp (n :: S)) = true := by
  rw [notesAt_space_eval S h0]
  have h1 : startsWithL ['|', '|'] (joinSp (n :: S)) = true := by
    cases S with
    | nil => exact hn
    | cons r rs =>
      rw [joinSp_cons (by simp)]
      exact startsWithL_append_left hn
  have h2 : ((joinSp (n :: S)).drop 2).all (fun c => !chIsNl c) = true := by
    rw [List.all_eq_true]
    intro c hc
    have := hnl c (List.mem_of_mem_drop hc)
    simp [this]
  rw [h1, h2]
  rfl

theorem findNotesGo_none_join {ts : List (List Char)}
    (hws : ∀ t ∈ ts, wsTok t = true)
    (hnp : ∀ t ∈ ts, startsWithL ['|', '|'] t = false) :
    ∀ racc, findNotesGo racc (joinSp ts) = none := by
  induction ts with
  | nil => intro racc; rfl
  | cons t ts ih =>
    intro racc
    have ht := hws t (by simp)
    cases ts with
    | nil =>
      have h2 : joinSp [t] = t ++ [] := by simp [joinSp]
      rw [h2, findNotesGo_token ht [] racc]
      rfl
    | cons t2 ts2 =>
      rw [joinSp_cons (by simp), findNotesGo_token ht _ racc,
        findNotesGo_cons_eq,
        if_neg (by
          rw [notesAt_space_cons_neg (hws t2 (by simp)) (hnp t2 (by simp))]
          simp)]
      exact ih (fun u hu => hws u (by simp [hu])) (fun u hu => hnp u (by simp [hu])) _

theorem findNotesGo_locate {n : List Char} {S : List (List Char)}
    (hn : startsWithL ['|', '|'] n = true)
    (hnl : ∀ c ∈ joinSp (n :: S), chIsNl c = false) (hnws : wsTok n = true) :
    ∀ (P : List (List Char)) (racc : List Char),
      P ≠ [] → (∀ t ∈ P, wsTok t = true) →
      (∀ t ∈ P, startsWithL ['|', '|'] t = false) →
      findNotesGo racc (joinSp (P ++ n :: S)) =
        some (racc.reverse ++ joinSp P, ' ' :: joinSp (n :: S)) := by
  intro P
  induction P with
  | nil => intro racc hP; exact absurd rfl hP
  | cons t P' ih =>
    intro racc _ hPws hPn
    have ht := hPws t (by simp)
    rw [show (t :: P') ++ n :: S = t :: (P' ++ n :: S) from rfl,
      @joinSp_cons t (P' ++ n :: S) (by simp), findNotesGo_token ht _ racc]
    cases P' with
    | nil =>
      rw [List.nil_append, findNotesGo_cons_eq,
        if_pos (by rw [notesAt_space_cons_pos hnws hn hnl])]
      simp [joinSp]
    | cons t2 P'' =>
      rw [show (t2 :: P'') ++ n :: S = t2 :: (P'' ++ n :: S) from rfl,
        findNotesGo_cons_eq,
        if_neg (by
          rw [show t2 :: (P'' ++ n :: S) = (t2 :: P'') ++ n :: S from rfl] at *
          rw [show joinSp ((t2 :: P'') ++ n :: S) =
            joinSp (t2 :: (P'' ++ n :: S)) from rfl]
          rw [notesAt_space_cons_neg (hPws t2 (by simp)) (hPn t2 (by simp))]
          simp),
        show joinSp (t2 :: (P'' ++ n :: S)) = joinSp ((t2 :: P'') ++ n :: S) from rfl,
        ih (' ' :: (t.reverse ++ racc)) (by simp) (fun u hu => hPws u (by simp [hu]))
          (fun u hu => hPn u (by simp [hu])),
        @joinSp_cons t (t2 :: P'') (by simp)]
      simp [List.append_assoc]

theorem chIsDigit_not_ws {c : Char} (h : chIsDigit c = true) : chIsWs c = false := by
  unfold chIsDigit at h
  unfold chIsWs
  simp only [Bool.and_eq_true, decide_eq_true_eq] at h
  simp only [Bool.or_eq_false_iff, decide_eq_false_iff_not]
  omega

theorem chIsDigit_not_nl {c : Char} (h : chIsDigit c = true) : chIsNl c = false := by
  unfold chIsDigit at h
  unfold chIsNl
  simp only [Bool.and_eq_true, decide_eq_true_eq] at h
  simp only [Bool.or_eq_false_iff, decide_eq_false_iff_not]
  omega

theorem chIsDigit_ne {c d : Char} (h : chIsDigit c = true) (hd : chIsDigit d = false) :
    ¬c = d := by
  intro he
  rw [he, hd] at h
  exact absurd h (by simp)

theorem chIsUpper_not_ws {c : Char} (h : chIsUpper c = true) : chIsWs c = false := by
  unfold chIsUpper at h
  unfold chIsWs
  simp only [Bool.and_eq_true, decide_eq_true_eq] at h
  simp only [Bool.or_eq_false_iff, decide_eq_false_iff_not]
  omega

theorem hasPriSub_false_of_no_p {t : List Char} (h : ∀ c ∈ t, ¬c = 'p') :
    hasPriSub t = false := by
  induction t with
  | nil => rfl
  | cons c cs ih =>
    have hc : ('p' = c) = False :=
      eq_false (fun he => h c (by simp) he.symm)
    unfold hasPriSub
    rw [show startsWithL ['p', 'r', 'i', ':'] (c :: cs) =
      (decide ('p' = c) && startsWithL ['r', 'i', ':'] cs) from rfl]
    simp [hc, ih (fun d hd => h d (by simp [hd]))]

theorem isDateShape_cleanTok {t : List Char} (h : isDateShape t = true) :
    cleanTok t = true := by
  unfold isDateShape at h
  split at h
  · rename_i a b c d e f g hh i j
    simp only [Bool.and_eq_true, decide_eq_true_eq] at h
    obtain ⟨⟨⟨⟨⟨⟨⟨⟨⟨h1, h2⟩, h3⟩, h4⟩, h5⟩, h6⟩, h7⟩, h8⟩, h9⟩, h10⟩ := h
    subst h5
    subst h8
    unfold cleanTok wsTok
    have hws : ∀ c, chIsDigit c = true → (!chIsWs c) = true := by
      intro c hc
      simp [chIsDigit_not_ws hc]
    have hnl : ∀ c, chIsDigit c = true → (!chIsNl c) = true := by
      intro c hc
      simp [chIsDigit_not_nl hc]
    have hpri : hasPriSub [a, b, c, d, '-', f, g, '-', i, j] = false := by
      refine hasPriSub_false_of_no_p ?_
      intro e he
      simp only [List.mem_cons, List.not_mem_nil, or_false] at he
      have hpd : chIsDigit 'p' = false := by decide
      rcases he with rfl | rfl | rfl | rfl | rfl | rfl | rfl | rfl | rfl | rfl <;>
        first
          | exact chIsDigit_ne (by assumption) hpd
          | decide
    simp only [List.all_cons, List.all_nil, hws a h1, hws b h2, hws c h3, hws d h4,
      hws f h6, hws g h7, hws i h9, hws j h10, hnl a h1, hnl b h2, hnl c h3, hnl d h4,
      hnl f h6, hnl g h7, hnl i h9, hnl j h10, hpri]
    have hd1 : chIsWs '-' = false := by decide
    have hd2 : chIsNl '-' = false := by decide
    simp [hd1, hd2]
  · exact absurd h (by simp)

theorem isDateShape_noPipes {t : List Char} (h : isDateShape t = true) :
    startsWithL ['|', '|'] t = false := by
  unfold isDateShape at h
  split at h
  · rename_i a b c d e f g hh i j
    simp only [Bool.and_eq_true, decide_eq_true_eq] at h
    have h1 := h.1.1.1.1.1.1.1.1.1
    have hp : ('|' = a) = False :=
      eq_false (fun he => absurd (he ▸ h1) (by decide))
    rw [show startsWithL ['|', '|'] (a :: b :: c :: d :: e :: f :: g :: hh :: i :: j :: []) =
      (decide ('|' = a) && startsWithL ['|'] (b :: c :: d :: e :: f :: g :: hh :: i :: j :: []))
      from rfl]
    simp [hp]
  · exact absurd h (by simp)

theorem chIsUpper_priTok_wsTok {x : Char} (hx : chIsUpper x = true) :
    wsTok (priTok x) = true := by
  unfold wsTok priTok
  simp only [List.all_cons, List.all_nil]
  have := chIsUpper_not_ws hx
  simp [this]
  decide

theorem extractPriorityC_prio {x : Char} {rest : List (List Char)} (hx : chIsUpper x = true)
    (hrest : rest ≠ []) (hclean : ∀ t ∈ rest, cleanTok t = true) :
    extractPriorityC (joinSp (['(', x, ')'] :: rest)) = (joinSp rest, some x) := by
  rw [joinSp_cons hrest]
  obtain ⟨c, v, hv, hcw⟩ :=
    joinSp_head_nonws hrest (fun t ht => cleanTok_wsTok (hclean t ht))
  have hall : (joinSp rest).all (fun d => !chIsNl d) = true := by
    rw [List.all_eq_true]
    intro d hd
    simp [joinSp_nonNl hclean d hd]
  show extractPriorityC ('(' :: x :: ')' :: (' ' :: joinSp rest)) = (joinSp rest, some x)
  unfold extractPriorityC
  rw [hv] at hall ⊢
  have hsp : chIsWs ' ' = true := by decide
  simp [hx, List.takeWhile_cons, List.dropWhile_cons, hsp, hcw, hall]

theorem extractPriorityC_none {t0 : List Char} {rest : List (List Char)}
    (hclean : ∀ t ∈ t0 :: rest, cleanTok t = true)
    (hneg : ¬((∃ x, t0 = ['(', x, ')'] ∧ chIsUpper x = true) ∧ rest ≠ [])) :
    extractPriorityC (joinSp (t0 :: rest)) = (joinSp (t0 :: rest), none) := by
  have h0 := hclean t0 (by simp)
  have h0w := wsTok_nonws (cleanTok_wsTok h0)
  rcases t0 with _ | ⟨c1, _ | ⟨c2, _ | ⟨c3, t4⟩⟩⟩
  · exact absurd rfl (wsTok_ne_nil (cleanTok_wsTok h0))
  · -- single-character first token
    cases rest with
    | nil => rfl
    | cons r rs =>
      obtain ⟨cr, v, hv, hcrw⟩ := @joinSp_head_nonws (r :: rs) (by simp)
        (fun t ht => cleanTok_wsTok (hclean t (by simp [ht])))
      rw [@joinSp_cons [c1] (r :: rs) (by simp), hv]
      show extractPriorityC (c1 :: ' ' :: cr :: v) = (c1 :: ' ' :: cr :: v, none)
      unfold extractPriorityC
      have hup : chIsUpper ' ' = false := by decide
      simp [hup]
  · -- two-character first token
    cases rest with
    | nil => rfl
    | cons r rs =>
      rw [@joinSp_cons [c1, c2] (r :: rs) (by simp)]
      show extractPriorityC (c1 :: c2 :: ' ' :: joinSp (r :: rs)) = _
      unfold extractPriorityC
      have hne : (' ' = ')') = False := by simp
      simp [hne]
  · -- first token of length at least three
    by_cases hcond : c1 = '(' ∧ chIsUpper c2 = true ∧ c3 = ')'
    · obtain ⟨rfl, hup, rfl⟩ := hcond
      rcases t4 with _ | ⟨c4, t5⟩
      · -- first token is exactly a priority marker
        have hrest : rest = [] := by
          by_contra hr
          exact hneg ⟨⟨c2, rfl, hup⟩, hr⟩
        subst hrest
        show extractPriorityC ('(' :: c2 :: ')' :: []) = _
        unfold extractPriorityC
        simp [hup]
        rfl
      · -- longer token starting with a priority-marker shape
        have hc4 : chIsWs c4 = false := h0w c4 (by simp)
        cases rest with
        | nil =>
          show extractPriorityC ('(' :: c2 :: ')' :: c4 :: t5) = _
          unfold extractPriorityC
          simp [hup, List.takeWhile_cons, hc4]
          rfl
        | cons r rs =>
          rw [@joinSp_cons ('(' :: c2 :: ')' :: c4 :: t5) (r :: rs) (by simp)]
          show extractPriorityC
            ('(' :: c2 :: ')' :: c4 :: (t5 ++ ' ' :: joinSp (r :: rs))) = _
          unfold extractPriorityC
          simp [hup, List.takeWhile_cons, hc4]
    · have hcondb : (decide (c1 = '(') && chIsUpper c2 && decide (c3 = ')')) = false := by
        by_cases h1 : c1 = '('
        · by_cases h2 : chIsUpper c2 = true
          · by_cases h3 : c3 = ')'
            · exact absurd ⟨h1, h2, h3⟩ hcond
            · simp [h3]
          · simp [h2]
        · simp [h1]
      cases rest with
      | nil =>
        show extractPriorityC (c1 :: c2 :: c3 :: t4) = _
        unfold extractPriorityC
        dsimp only
        rw [hcondb]
        simp
        rfl
      | cons r rs =>
        rw [@joinSp_cons (c1 :: c2 :: c3 :: t4) (r :: rs) (by simp)]
        show extractPriorityC (c1 :: c2 :: c3 :: (t4 ++ ' ' :: joinSp (r :: rs))) = _
        unfold extractPriorityC
        dsimp only
        rw [hcondb]
        simp

theorem uncomplete_steps (today : String) (M : List (List Char))
    (htoday : isDateShape today.data = true)
    (hM : ∀ t ∈ M, wsTok t = true) :
    uncompleteTaskLine (String.mk (joinSp (['x'] :: today.data :: M))) =
      (match findPriSplit (joinSp M) with
        | some (before, x, after) => String.mk ('(' :: x :: ')' :: ' ' :: (before ++ after))
        | none => String.mk (joinSp M)) := by
  have hall : ∀ t ∈ ['x'] :: today.data :: M, wsTok t = true := by
    intro t ht
    rcases List.mem_cons.mp ht with rfl | ht2
    · decide
    · rcases List.mem_cons.mp ht2 with rfl | ht3
      · exact cleanTok_wsTok (isDateShape_cleanTok htoday)
      · exact hM t ht3
  unfold uncompleteTaskLine
  rw [show (String.mk (joinSp (['x'] :: today.data :: M))).data =
    joinSp (['x'] :: today.data :: M) from rfl]
  rw [trimL_joinSp (by simp) hall, jsSplitWs_join (by simp) hall]
  dsimp only
  rw [if_pos (show (['x'] = ['x'] && isDateShape today.data) = true by simp [htoday])]

theorem roundtrip_noprio (toks : List (List Char)) (today : String)
    (hne : toks ≠ []) (hclean : ∀ t ∈ toks, cleanTok t = true)
    (htoday : isDateShape today.data = true) :
    uncompleteTaskLine (String.mk (buildCompletedLine today (joinSp toks) none)) =
      String.mk (joinSp toks) := by
  have hbase : buildCompletedLine today (joinSp toks) none =
      joinSp (['x'] :: today.data :: toks) := by
    unfold buildCompletedLine
    rw [@joinSp_cons ['x'] (today.data :: toks) (by simp),
      @joinSp_cons today.data toks hne]
    rfl
  rw [hbase,
    uncomplete_steps today toks htoday (fun t ht => cleanTok_wsTok (hclean t ht))]
  rw [show findPriSplit (joinSp toks) = none from findPriGo_none_join hclean []]

theorem roundtrip_prio (x : Char) (rest : List (List Char)) (today : String)
    (hx : chIsUpper x = true) (hrest : rest ≠ [])
    (hclean : ∀ t ∈ rest, cleanTok t = true)
    (htoday : isDateShape today.data = true)
    (hhead : ∀ t ts', rest = t :: ts' → startsWithL ['|', '|'] t = false) :
    uncompleteTaskLine (String.mk (buildCompletedLine today (joinSp rest) (some x))) =
      String.mk (joinSp (['(', x, ')'] :: rest)) := by
  have hxtok : wsTok ['x'] = true := by decide
  have htodaytok : wsTok today.data = true := cleanTok_wsTok (isDateShape_cleanTok htoday)
  have hrestws : ∀ t ∈ rest, wsTok t = true := fun t ht => cleanTok_wsTok (hclean t ht)
  have hbase : 'x' :: ' ' :: (today.data ++ ' ' :: joinSp rest) =
      joinSp (['x'] :: today.data :: rest) := by
    rw [@joinSp_cons ['x'] (today.data :: rest) (by simp),
      @joinSp_cons today.data rest hrest]
    rfl
  set A := rest.takeWhile (fun t => !startsWithL ['|', '|'] t) with hA
  set D := rest.dropWhile (fun t => !startsWithL ['|', '|'] t) with hD
  have hAD : A ++ D = rest :=
    List.takeWhile_append_dropWhile (fun t => !startsWithL ['|', '|'] t) rest
  have hAmem : ∀ t ∈ A, startsWithL ['|', '|'] t = false := by
    intro t ht
    have := List.mem_takeWhile_imp ht
    simpa using this
  have hArest : ∀ t ∈ A, t ∈ rest := by
    intro t ht
    rw [← hAD]
    exact List.mem_append.mpr (Or.inl ht)
  cases hDval : D with
  | nil =>
    -- no notes token anywhere: pri:X is appended at the end
    have hAeq : A = rest := by rw [← hAD, hDval, List.append_nil]
    have hallno : ∀ t ∈ ['x'] :: today.data :: rest, startsWithL ['|', '|'] t = false := by
      intro t ht
      rcases List.mem_cons.mp ht with rfl | ht2
      · decide
      · rcases List.mem_cons.mp ht2 with rfl | ht3
        · exact isDateShape_noPipes htoday
        · exact hAmem t (by rw [hAeq]; exact ht3)
    have hallws : ∀ t ∈ ['x'] :: today.data :: rest, wsTok t = true := by
      intro t ht
      rcases List.mem_cons.mp ht with rfl | ht2
      · exact hxtok
      · rcases List.mem_cons.mp ht2 with rfl | ht3
        · exact htodaytok
        · exact hrestws t ht3
    have hbuild : buildCompletedLine today (joinSp rest) (some x) =
        joinSp (['x'] :: today.data :: (rest ++ [priTok x])) := by
      unfold buildCompletedLine
      dsimp only
      rw [hbase,
        show findNotesSplit (joinSp (['x'] :: today.data :: rest)) = none from
          findNotesGo_none_join hallws hallno [],
        show ['x'] :: today.data :: (rest ++ [priTok x]) =
          (['x'] :: today.data :: rest) ++ [priTok x] from by simp,
        joinSp_append (by simp) (by simp)]
      rfl
    rw [hbuild, uncomplete_steps today (rest ++ [priTok x]) htoday (by
      intro t ht
      rcases List.mem_append.mp ht with ht2 | ht2
      · exact hrestws t ht2
      · rw [List.mem_singleton.mp ht2]
        exact chIsUpper_priTok_wsTok hx)]
    rw [show findPriSplit (joinSp (rest ++ priTok x :: [])) =
      some ([].reverse ++ joinSp rest, x, (match ([] : List (List Char)) with
        | [] => [] | _ :: _ => ' ' :: joinSp ([] : List (List Char)))) from
      findPriGo_locate hx rest [] [] hrest hclean]
    rw [@joinSp_cons ['(', x, ')'] rest hrest]
    simp
  | cons n B =>
    have hnstart : startsWithL ['|', '|'] n = true := by
      have : (fun t => !startsWithL ['|', '|'] t) n = false := by
        have hgen : ∀ (l : List (List Char)),
            l.dropWhile (fun t => !startsWithL ['|', '|'] t) = n :: B →
            (fun t => !startsWithL ['|', '|'] t) n = false := by
          intro l
          induction l with
          | nil => intro hcontra; simp at hcontra
          | cons a as ih =>
            intro hdw
            rw [List.dropWhile_cons] at hdw
            by_cases ha : (!startsWithL ['|', '|'] a) = true
            · rw [if_pos ha] at hdw
              exact ih hdw
            · rw [if_neg ha] at hdw
              have : a = n := (List.cons.injEq _ _ _ _ ▸ hdw).1
              rw [← this]
              simpa using ha
        exact hgen rest (by rw [← hD, hDval])
      simpa using this
    have hrestAnB : rest = A ++ n :: B := by rw [← hAD, hDval]
    have hnmem : n ∈ rest := by rw [hrestAnB]; simp
    have hAne : A ≠ [] := by
      intro hA0
      rcases rest with _ | ⟨t1, ts'⟩
      · exact hrest rfl
      · have h1 := hhead t1 ts' rfl
        have heq : t1 :: ts' = n :: B := by
          rw [hrestAnB, hA0, List.nil_append]
        injection heq with he1 he2
        rw [he1] at h1
        rw [h1] at hnstart
        exact absurd hnstart (by simp)
    have hnlall : ∀ c ∈ joinSp (n :: B), chIsNl c = false := by
      refine joinSp_nonNl ?_
      intro t ht
      refine hclean t ?_
      rw [hrestAnB]
      exact List.mem_append.mpr (Or.inr ht)
    have hP : (['x'] :: today.data :: A) ≠ [] := by simp
    have hPws : ∀ t ∈ ['x'] :: today.data :: A, wsTok t = true := by
      intro t ht
      rcases List.mem_cons.mp ht with rfl | ht2
      · exact hxtok
      · rcases List.mem_cons.mp ht2 with rfl | ht3
        · exact htodaytok
        · exact hrestws t (hArest t ht3)
    have hPn : ∀ t ∈ ['x'] :: today.data :: A, startsWithL ['|', '|'] t = false := by
      intro t ht
      rcases List.mem_cons.mp ht with rfl | ht2
      · decide
      · rcases List.mem_cons.mp ht2 with rfl | ht3
        · exact isDateShape_noPipes htoday
        · exact hAmem t ht3
    have hbase2 : joinSp (['x'] :: today.data :: rest) =
        joinSp ((['x'] :: today.data :: A) ++ n :: B) := by
      rw [hrestAnB]
      rfl
    have hbuild : buildCompletedLine today (joinSp rest) (some x) =
        joinSp (['x'] :: today.data :: (A ++ priTok x :: n :: B)) := by
      unfold buildCompletedLine
      dsimp only
      rw [hbase, hbase2,
        show findNotesSplit (joinSp ((['x'] :: today.data :: A) ++ n :: B)) =
          some (([] : List Char).reverse ++ joinSp (['x'] :: today.data :: A),
            ' ' :: joinSp (n :: B)) from
          findNotesGo_locate hnstart hnlall (hrestws n hnmem) _ [] hP hPws hPn]
      dsimp only
      rw [show ['x'] :: today.data :: (A ++ priTok x :: n :: B) =
          (['x'] :: today.data :: A) ++ priTok x :: n :: B from by simp,
        @joinSp_append (['x'] :: today.data :: A) (priTok x :: n :: B) (by simp) (by simp),
        @joinSp_cons (priTok x) (n :: B) (by simp)]
      simp [priTok]
    rw [hbuild, uncomplete_steps today (A ++ priTok x :: n :: B) htoday (by
      intro t ht
      rcases List.mem_append.mp ht with ht2 | ht2
      · exact hrestws t (hArest t ht2)
      · rcases List.mem_cons.mp ht2 with rfl | ht3
        · exact chIsUpper_priTok_wsTok hx
        · exact hrestws t (by rw [hrestAnB]; exact List.mem_append.mpr (Or.inr ht3)))]
    rw [show findPriSplit (joinSp (A ++ priTok x :: n :: B)) =
      some (([] : List Char).reverse ++ joinSp A, x, ' ' :: joinSp (n :: B)) from
      findPriGo_locate hx A (n :: B) [] hAne (fun t ht => hclean t (hArest t ht))]
    dsimp only
    rw [@joinSp_cons ['(', x, ')'] rest hrest, hrestAnB,
      joinSp_append hAne (by simp)]
    rfl

/-- Side condition for the round-trip: when the line starts with a `(X)`
priority marker, the token right after it does not open a `||` notes
section (otherwise `completeTask` inserts ` pri:X` before the space that
precedes `||`, and `uncompleteTask` leaves a double space behind). -/
def headPriNotesOk : List (List Char) → Bool
  | (c1 :: x :: c3 :: []) :: t1 :: _ =>
      !(c1 = '(' && chIsUpper x && c3 = ')' && startsWithL ['|', '|'] t1)
  | _ => true

/-- C10 counterexample: completing `"(A) ||note"` on 2025-01-15 and then
uncompleting the produced line yields `"(A)  ||note"` (double space before
the notes marker), not the original raw line, refuting the unconditional
round-trip claim. -/
theorem claim_C10_counterexample :
    completeTaskLines "2025-01-15" "(A) ||note" =
      some ("x 2025-01-15 pri:A ||note", none) ∧
    uncompleteTaskLine "x 2025-01-15 pri:A ||note" = "(A)  ||note" ∧
    ("(A)  ||note" : String) ≠ "(A) ||note" := by
  refine ⟨by decide, by decide, by decide⟩

/-- C10 (amended): for a task line made of single-space-separated tokens
that are nonempty, contain no whitespace or newline and no `pri:`
substring, whose first token is not `x`, and where a leading `(X)`
priority marker is not immediately followed by a `||` notes token,
completing the task (`TaskService.completeTask`) and then uncompleting
the completed line (`TaskService.uncompleteTask`) restores the original
raw line exactly. -/
theorem claim_C10_complete_uncomplete (toks : List (List Char)) (today C : String)
    (sib : Option String)
    (hne : toks ≠ [])
    (hclean : ∀ t ∈ toks, cleanTok t = true)
    (hx0 : toks.head? ≠ some ['x'])
    (hnotes : headPriNotesOk toks = true)
    (htoday : isDateShape today.data = true)
    (hC : completeTaskLines today (String.mk (joinSp toks)) = some (C, sib)) :
    uncompleteTaskLine C = String.mk (joinSp toks) := by
  rw [show completeTaskLines today (String.mk (joinSp toks)) =
    (completeSibling (String.mk (joinSp toks))).map (fun sb =>
      (String.mk (buildCompletedLine today
        (extractPriorityC (joinSp toks)).1
        (extractPriorityC (joinSp toks)).2), sb)) from rfl] at hC
  rcases Option.map_eq_some'.mp hC with ⟨sb0, hsb, hpair⟩
  have hCval : C = String.mk (buildCompletedLine today
      (extractPriorityC (joinSp toks)).1 (extractPriorityC (joinSp toks)).2) := by
    have h1 := congrArg Prod.fst hpair
    simpa using h1.symm
  rcases toks with _ | ⟨t0, rest⟩
  · exact absurd rfl hne
  by_cases hshape : (∃ x, t0 = ['(', x, ')'] ∧ chIsUpper x = true) ∧ rest ≠ []
  · obtain ⟨⟨x, ht0, hx⟩, hrest⟩ := hshape
    subst ht0
    have hE : extractPriorityC (joinSp (['(', x, ')'] :: rest)) = (joinSp rest, some x) :=
      extractPriorityC_prio hx hrest (fun t ht => hclean t (by simp [ht]))
    rw [hCval, hE]
    refine roundtrip_prio x rest today hx hrest
      (fun t ht => hclean t (by simp [ht])) htoday ?_
    intro t ts' hrs
    rw [hrs] at hnotes
    rw [show headPriNotesOk (['(', x, ')'] :: t :: ts') =
      !(('(' = '(' : Bool) && chIsUpper x && (')' = ')' : Bool) &&
        startsWithL ['|', '|'] t) from rfl] at hnotes
    simpa [hx] using hnotes
  · have hE : extractPriorityC (joinSp (t0 :: rest)) = (joinSp (t0 :: rest), none) :=
      extractPriorityC_none hclean hshape
    rw [hCval, hE]
    exact roundtrip_noprio (t0 :: rest) today (by simp) hclean htoday

/-- Closed instance of the amended C10 round-trip at the concrete line
`"(A) hello world"` completed on 2025-01-15. -/
theorem claim_C10_complete_uncomplete_witness :
    uncompleteTaskLine "x 2025-01-15 hello world pri:A" =
      String.mk (joinSp [['(', 'A', ')'], ['h', 'e', 'l', 'l', 'o'],
        ['w', 'o', 'r', 'l', 'd']]) :=
  claim_C10_complete_uncomplete
    [['(', 'A', ')'], ['h', 'e', 'l', 'l', 'o'], ['w', 'o', 'r', 'l', 'd']]
    "2025-01-15" "x 2025-01-15 hello world pri:A" none
    (by decide) (by decide) (by decide) (by decide) (by decide) (by decide)

end TodoTxt
